import Mathlib

/-!
# Series reconciliation of the backtest dashboard

A shallow embedding of `prepareChartData` (src/frontend/src/App.jsx, lines 31-96):
the routine that merges the strategy equity curve, the benchmark equity curve and
the trade list of a backtest result into one date-ordered list of chart points.

Modelling choices.

* JSON numbers are only copied from field to field and never computed with, so a
  number is an `Int` here.
* A JavaScript `Map` with string keys is an association list in insertion order;
  `set` on a key already present keeps the position of the key and replaces the
  value, `set` on a new key appends.
* The objects stored in the map are mutated in place in the source
  (`existing.benchmark = ...`); every object is referenced from its map entry
  only, so a mutation is a replacement of the value stored under the key.
* A step that would throw a `TypeError` in JavaScript (reading a property of
  `undefined`) returns `Except.error`.
* `new Date(s)` is modelled on the date-only form `YYYY-MM-DD` of the ECMAScript
  date-time string format (UTC midnight of that day); every other string is
  treated as unparseable (time value `NaN`, here `none`).
* `Array.prototype.sort` is a stable sort; a comparator result `NaN` counts as `+0`.
-/

namespace Reconciler

/-! ## Data model -/

/-- The error a JavaScript step can raise in this routine. -/
inductive JsError where
  | typeError
  deriving DecidableEq, Repr

/-- One entry of an equity curve: `{ date, equity }`. -/
structure EquityPoint where
  date : String
  equity : Int
  deriving DecidableEq, Repr

/-- One entry of the trade list; only the two dates are read. -/
structure Trade where
  entry_date : String
  exit_date : String
  deriving DecidableEq, Repr

/-- The `benchmark` object of a result; its `equity_curve` may be missing. -/
structure Benchmark where
  equity_curve : Option (List EquityPoint)
  deriving DecidableEq, Repr

/-- The response of the backtest service, as far as the routine reads it. -/
structure BacktestResult where
  equity_curve : List EquityPoint
  benchmark : Option Benchmark
  trades : Option (List Trade)
  deriving DecidableEq, Repr

/-- One element of the returned array. A field that was never assigned
(`undefined` in JavaScript) is `none`. -/
structure ChartPoint where
  date : String
  equity : Int
  price : Int
  benchmark : Option Int
  buy_marker : Option Int
  sell_marker : Option Int
  action : Option String
  deriving DecidableEq, Repr

/-! ## The JavaScript `Map` -/

/-- A `Map` from date strings to chart points, in insertion order. -/
abbrev DataMap := List (String × ChartPoint)

/-- The keys of the map in insertion order. -/
def mapKeys (m : DataMap) : List String := m.map Prod.fst

/-- `dataMap.has(k)`. -/
def mapHas : DataMap → String → Bool
  | [], _ => false
  | (k0, _) :: m, k => if k0 = k then true else mapHas m k

/-- `dataMap.get(k)`; `none` is `undefined`. -/
def mapGet : DataMap → String → Option ChartPoint
  | [], _ => none
  | (k0, v0) :: m, k => if k0 = k then some v0 else mapGet m k

/-- `dataMap.set(k, v)`: replaces the value of an existing key in place, appends a
new key at the end. -/
def mapSet : DataMap → String → ChartPoint → DataMap
  | [], k, v => [(k, v)]
  | (k0, v0) :: m, k, v => if k0 = k then (k0, v) :: m else (k0, v0) :: mapSet m k v

/-- `Array.from(dataMap.values())`. -/
def mapValues (m : DataMap) : List ChartPoint := m.map Prod.snd

/-- `xs.forEach(f)` where the callback updates a state and may throw. -/
def forEach {α σ : Type} (f : σ → α → Except JsError σ) : List α → σ → Except JsError σ
  | [], s => .ok s
  | x :: xs, s =>
    match f s x with
    | .ok s1 => forEach f xs s1
    | .error e => .error e

/-! ## `new Date(s)` on date-only ISO strings -/

/-- The value of a decimal digit character. -/
def digitValue (c : Char) : Option Nat :=
  if 48 ≤ c.toNat ∧ c.toNat ≤ 57 then some (c.toNat - 48) else none

/-- The year, month and day fields of a string of the shape `YYYY-MM-DD`. -/
def parseFields (s : String) : Option (Nat × Nat × Nat) :=
  match s.data with
  | [y1, y2, y3, y4, s1, m1, m2, s2, d1, d2] =>
    if s1 = '-' ∧ s2 = '-' then
      match digitValue y1, digitValue y2, digitValue y3, digitValue y4,
            digitValue m1, digitValue m2, digitValue d1, digitValue d2 with
      | some a, some b, some c, some d, some e, some f, some g, some h =>
        some (1000 * a + 100 * b + 10 * c + d, 10 * e + f, 10 * g + h)
      | _, _, _, _, _, _, _, _ => none
    else none
  | _ => none

/-- Leap years of the proleptic Gregorian calendar. -/
def inLeapYear (y : Nat) : Bool :=
  y % 4 = 0 ∧ (y % 100 ≠ 0 ∨ y % 400 = 0)

/-- Number of days of month `m` (1 to 12) in year `y`; 0 for any other `m`. -/
def daysInMonth (y m : Nat) : Nat :=
  match m with
  | 1 => 31
  | 2 => if inLeapYear y then 29 else 28
  | 3 => 31
  | 4 => 30
  | 5 => 31
  | 6 => 30
  | 7 => 31
  | 8 => 31
  | 9 => 30
  | 10 => 31
  | 11 => 30
  | 12 => 31
  | _ => 0

/-- Number of days of the year `y` that precede month `m`. -/
def daysBeforeMonth (y m : Nat) : Nat :=
  match m with
  | 0 => 0
  | 1 => 0
  | k + 1 => daysBeforeMonth y k + daysInMonth y k

/-- ECMAScript `DayFromYear`: the day number of 1 January of year `y`, counted
from 1 January 1970. -/
def dayFromYear (y : Int) : Int :=
  365 * (y - 1970) + (y - 1969) / 4 - (y - 1901) / 100 + (y - 1601) / 400

/-- ECMAScript `msPerDay`. -/
def msPerDay : Int := 86400000

/-- A string is an ISO calendar date when it has the shape `YYYY-MM-DD` and names
a day that exists. -/
def isIsoDate (s : String) : Bool :=
  match parseFields s with
  | some (y, m, d) => decide (1 ≤ m ∧ m ≤ 12 ∧ 1 ≤ d ∧ d ≤ daysInMonth y m)
  | none => false

/-- The time value of `new Date(s)`: milliseconds since the epoch for an ISO
calendar date, `none` (the time value `NaN`) otherwise. -/
def dateValue (s : String) : Option Int :=
  match parseFields s with
  | some (y, m, d) =>
    if 1 ≤ m ∧ m ≤ 12 ∧ 1 ≤ d ∧ d ≤ daysInMonth y m then
      some ((dayFromYear (y : Int) + (daysBeforeMonth y m : Int) + ((d : Int) - 1)) * msPerDay)
    else none
  | none => none

/-! ## `Array.prototype.sort` with the date comparator -/

/-- The comparator `(a, b) => new Date(a.date) - new Date(b.date)`; `none` is `NaN`. -/
def compareFn (a b : ChartPoint) : Option Int :=
  match dateValue a.date, dateValue b.date with
  | some x, some y => some (x - y)
  | _, _ => none

/-- ECMAScript `SortCompare` on defined elements: a `NaN` comparator result is `+0`. -/
def sortCompare (a b : ChartPoint) : Int :=
  match compareFn a b with
  | some v => v
  | none => 0

/-- Insertion of `a`, which preceded every element of `l` in the input, into the
sorted `l`: `a` moves behind `b` only when `sortCompare a b > 0`. -/
def sortInsert (a : ChartPoint) : List ChartPoint → List ChartPoint
  | [] => [a]
  | b :: l => if sortCompare a b ≤ 0 then a :: b :: l else b :: sortInsert a l

/-- The stable sort of an array by `sortCompare`. ECMAScript requires the sort to be
stable and leaves the algorithm open; on an array on which the comparator is a
consistent ordering every stable sort returns the same array, and insertion sort is
taken as the representative. -/
def arraySort : List ChartPoint → List ChartPoint
  | [] => []
  | a :: l => sortInsert a (arraySort l)

/-! ## The three stages and `prepareChartData` -/

/-- Stage 1 callback (lines 42-48): `dataMap.set(pt.date, {date, equity, price: 0})`. -/
def seedStep (dataMap : DataMap) (pt : EquityPoint) : Except JsError DataMap :=
  .ok (mapSet dataMap pt.date
    { date := pt.date, equity := pt.equity, price := 0, benchmark := none,
      buy_marker := none, sell_marker := none, action := none })

/-- Stage 2 callback (lines 52-75) for the benchmark curve `curve`. -/
def benchmarkStep (curve : List EquityPoint) (dataMap : DataMap) (pt : EquityPoint) :
    Except JsError DataMap :=
  if mapHas dataMap pt.date then
    match mapGet dataMap pt.date with
    | none => .error .typeError
    | some existing =>
      let existing1 := { existing with benchmark := some pt.equity }
      -- const initialCap = results.benchmark.equity_curve[0].equity
      match curve.head? with
      | none => .error .typeError
      | some first =>
        let _initialCap := first.equity
        .ok (mapSet dataMap pt.date { existing1 with price := pt.equity })
  else .ok dataMap

/-- Lines 83-86: the entry half of the trade callback. -/
def entryStep (dataMap : DataMap) (trade : Trade) : Except JsError DataMap :=
  if mapHas dataMap trade.entry_date then
    match mapGet dataMap trade.entry_date with
    | none => .error .typeError
    | some target =>
      match mapGet dataMap trade.entry_date with
      | none => .error .typeError
      | some source =>
        let dataMap1 := mapSet dataMap trade.entry_date
          { target with buy_marker := some source.price }
        match mapGet dataMap1 trade.entry_date with
        | none => .error .typeError
        | some target1 =>
          .ok (mapSet dataMap1 trade.entry_date { target1 with action := some "BUY" })
  else .ok dataMap

/-- Lines 88-91: the exit half of the trade callback. -/
def exitStep (dataMap : DataMap) (trade : Trade) : Except JsError DataMap :=
  if mapHas dataMap trade.exit_date then
    match mapGet dataMap trade.exit_date with
    | none => .error .typeError
    | some target =>
      match mapGet dataMap trade.exit_date with
      | none => .error .typeError
      | some source =>
        let dataMap1 := mapSet dataMap trade.exit_date
          { target with sell_marker := some source.price }
        match mapGet dataMap1 trade.exit_date with
        | none => .error .typeError
        | some target1 =>
          .ok (mapSet dataMap1 trade.exit_date { target1 with action := some "SELL" })
  else .ok dataMap

/-- Stage 3 callback (lines 81-92): entry first, then exit. -/
def tradeStep (dataMap : DataMap) (trade : Trade) : Except JsError DataMap :=
  match entryStep dataMap trade with
  | .ok dataMap1 => exitStep dataMap1 trade
  | .error e => .error e

/-- Stage 2 (lines 51-76): runs only when `results.benchmark` and its
`equity_curve` are both present. -/
def benchmarkStage (benchmark : Option Benchmark) (dataMap : DataMap) :
    Except JsError DataMap :=
  match benchmark with
  | none => .ok dataMap
  | some b =>
    match b.equity_curve with
    | none => .ok dataMap
    | some curve => forEach (benchmarkStep curve) curve dataMap

/-- Stage 3 (lines 80-93): runs only when `results.trades` is present. -/
def tradeStage (trades : Option (List Trade)) (dataMap : DataMap) : Except JsError DataMap :=
  match trades with
  | none => .ok dataMap
  | some ts => forEach tradeStep ts dataMap

/-- The map after the three stages (lines 39-93). -/
def buildMap (results : BacktestResult) : Except JsError DataMap :=
  match forEach seedStep results.equity_curve [] with
  | .error e => .error e
  | .ok m1 =>
    match benchmarkStage results.benchmark m1 with
    | .error e => .error e
    | .ok m2 => tradeStage results.trades m2

/-- The routine `prepareChartData` (lines 31-96); `none` is the state before any
result has arrived (`results` is `null`). -/
def prepareChartData (results : Option BacktestResult) : Except JsError (List ChartPoint) :=
  match results with
  | none => .ok []
  | some r =>
    match buildMap r with
    | .error e => .error e
    | .ok dataMap => .ok (arraySort (mapValues dataMap))

/-! ## Auxiliary definitions used to state and prove the properties -/

/-- The chart point created by stage 1 for the curve entry `pt`. -/
def seedPoint (pt : EquityPoint) : ChartPoint :=
  { date := pt.date, equity := pt.equity, price := 0, benchmark := none,
    buy_marker := none, sell_marker := none, action := none }

/-- The two assignments of stage 2 on a chart point. -/
def benchPoint (pt : EquityPoint) (p : ChartPoint) : ChartPoint :=
  { p with benchmark := some pt.equity, price := pt.equity }

/-- The two assignments of the entry half of stage 3 on a chart point. -/
def entryPoint (p : ChartPoint) : ChartPoint :=
  { p with buy_marker := some p.price, action := some "BUY" }

/-- The two assignments of the exit half of stage 3 on a chart point. -/
def exitPoint (p : ChartPoint) : ChartPoint :=
  { p with sell_marker := some p.price, action := some "SELL" }

/-- Replace the object stored under `k`, if there is one, by its image under `f`. -/
def mapModify (m : DataMap) (k : String) (f : ChartPoint → ChartPoint) : DataMap :=
  match mapGet m k with
  | some v => mapSet m k (f v)
  | none => m

/-- The effect of one benchmark entry on the chart point of date `d`. -/
def benchAt (d : String) (p : ChartPoint) (pt : EquityPoint) : ChartPoint :=
  if pt.date = d then benchPoint pt p else p

/-- The effect of one trade on the chart point of date `d`. -/
def tradeAt (d : String) (p : ChartPoint) (t : Trade) : ChartPoint :=
  let p1 := if t.entry_date = d then entryPoint p else p
  if t.exit_date = d then exitPoint p1 else p1

/-- The last entry of a curve that carries the date `d`. -/
def lastEntry : List EquityPoint → String → Option EquityPoint
  | [], _ => none
  | pt :: rest, d =>
    match lastEntry rest d with
    | some q => some q
    | none => if pt.date = d then some pt else none

/-- The benchmark curve that stage 2 iterates over (empty when stage 2 is skipped). -/
def benchmarkCurve (r : BacktestResult) : List EquityPoint :=
  match r.benchmark with
  | none => []
  | some b =>
    match b.equity_curve with
    | none => []
    | some curve => curve

/-- The trades that stage 3 iterates over (empty when stage 3 is skipped). -/
def tradeList (r : BacktestResult) : List Trade :=
  match r.trades with
  | none => []
  | some ts => ts

/-- The date keys of a curve. -/
def curveDates (curve : List EquityPoint) : List String := curve.map EquityPoint.date

/-- The keys of the map after stage 1: the dates of the curve, each once, in the
order of first occurrence. -/
def seedKeys (curve : List EquityPoint) : List String :=
  mapKeys (curve.foldl (fun m pt => mapSet m pt.date (seedPoint pt)) [])

/-- The chart point that the three stages leave under the key `d`, if any. -/
def finalPoint (r : BacktestResult) (d : String) : Option ChartPoint :=
  (lastEntry r.equity_curve d).map fun e =>
    (tradeList r).foldl (tradeAt d) ((benchmarkCurve r).foldl (benchAt d) (seedPoint e))

/-- Ascending order of two chart points by parsed date, both dates parsing. -/
def dateLe (a b : ChartPoint) : Prop :=
  ∃ x y, dateValue a.date = some x ∧ dateValue b.date = some y ∧ x ≤ y

/-- Strictly ascending order of two chart points by parsed date. -/
def dateLt (a b : ChartPoint) : Prop :=
  ∃ x y, dateValue a.date = some x ∧ dateValue b.date = some y ∧ x < y

/-! ## Concrete inputs -/

/-- A result whose curves are not in date order, with a repeated date, a benchmark
entry outside the strategy curve and two trades. -/
def sampleUnordered : BacktestResult :=
  { equity_curve := [⟨"2020-03-01", 105⟩, ⟨"2020-01-15", 100⟩, ⟨"2019-12-31", 90⟩,
      ⟨"2020-01-15", 101⟩],
    benchmark := some ⟨some [⟨"2020-01-15", 50⟩, ⟨"2020-04-01", 60⟩, ⟨"2019-12-31", 40⟩,
      ⟨"2020-01-15", 51⟩]⟩,
    trades := some [⟨"2019-12-31", "2020-01-15"⟩, ⟨"2020-01-15", "2020-03-01"⟩] }

/-- A result without a benchmark. -/
def sampleNoBenchmark : BacktestResult :=
  { equity_curve := [⟨"2020-01-02", 105⟩, ⟨"2020-01-01", 100⟩, ⟨"2020-01-02", 106⟩],
    benchmark := none,
    trades := some [⟨"2020-01-01", "2020-01-02"⟩] }

/-- A result whose benchmark curve has a date that the strategy curve lacks. -/
def sampleBenchmarkOnly : BacktestResult :=
  { equity_curve := [⟨"2020-01-01", 100⟩],
    benchmark := some ⟨some [⟨"2020-01-01", 100⟩, ⟨"2020-01-02", 102⟩]⟩,
    trades := some [] }

/-- Two back-to-back trades: the second is entered on the day the first is exited. -/
def sampleBackToBack : BacktestResult :=
  { equity_curve := [⟨"2020-01-01", 100⟩, ⟨"2020-01-02", 105⟩, ⟨"2020-01-03", 110⟩],
    benchmark := none,
    trades := some [⟨"2020-01-01", "2020-01-02"⟩, ⟨"2020-01-02", "2020-01-03"⟩] }

/-- A trade entered and exited on the same day, between two other trades. -/
def sampleSameDay : BacktestResult :=
  { equity_curve := [⟨"2020-01-01", 100⟩, ⟨"2020-01-02", 105⟩, ⟨"2020-01-03", 110⟩],
    benchmark := some ⟨some [⟨"2020-01-02", 50⟩]⟩,
    trades := some [⟨"2020-01-01", "2020-01-03"⟩, ⟨"2020-01-02", "2020-01-02"⟩,
      ⟨"2020-01-03", "2020-01-04"⟩] }

/-- An empty strategy curve with a benchmark curve and trades. -/
def sampleEmptyCurve : BacktestResult :=
  { equity_curve := [],
    benchmark := some ⟨some [⟨"2020-01-01", 100⟩, ⟨"2020-01-02", 102⟩]⟩,
    trades := some [⟨"2020-01-01", "2020-01-02"⟩] }

/-- The worked example of the specification: two days, a benchmark on both days and
one trade from the first day to the second. -/
def specExample : BacktestResult :=
  { equity_curve := [⟨"2020-01-01", 100⟩, ⟨"2020-01-02", 105⟩],
    benchmark := some ⟨some [⟨"2020-01-01", 100⟩, ⟨"2020-01-02", 102⟩]⟩,
    trades := some [⟨"2020-01-01", "2020-01-02"⟩] }

/-- The first point of the worked example. -/
def specExampleFirst : ChartPoint :=
  { date := "2020-01-01", equity := 100, price := 100, benchmark := some 100,
    buy_marker := some 100, sell_marker := none, action := some "BUY" }

/-- The second point of the worked example. -/
def specExampleSecond : ChartPoint :=
  { date := "2020-01-02", equity := 105, price := 102, benchmark := some 102,
    buy_marker := none, sell_marker := some 102, action := some "SELL" }

/-- A result with three days in both curves, in date order. -/
def sampleOrdered : BacktestResult :=
  { equity_curve := [⟨"2020-01-01", 100⟩, ⟨"2020-01-02", 105⟩, ⟨"2020-01-03", 110⟩],
    benchmark := some ⟨some [⟨"2020-01-01", 50⟩, ⟨"2020-01-02", 51⟩, ⟨"2020-01-03", 52⟩]⟩,
    trades := some [⟨"2020-01-01", "2020-01-03"⟩] }

/-- The result `sampleOrdered` with the entries of both curves in another order. -/
def sampleShuffled : BacktestResult :=
  { equity_curve := [⟨"2020-01-03", 110⟩, ⟨"2020-01-01", 100⟩, ⟨"2020-01-02", 105⟩],
    benchmark := some ⟨some [⟨"2020-01-02", 51⟩, ⟨"2020-01-03", 52⟩, ⟨"2020-01-01", 50⟩]⟩,
    trades := some [⟨"2020-01-01", "2020-01-03"⟩] }

/-! ## The map operations -/

theorem mapHas_iff (m : DataMap) (k : String) : mapHas m k = true ↔ k ∈ mapKeys m := by
  induction m with
  | nil => simp [mapHas, mapKeys]
  | cons e m ih =>
    obtain ⟨k0, v0⟩ := e
    by_cases h : k0 = k
    · simp [mapHas, mapKeys, h]
    · have h2 : ¬ k = k0 := fun e => h e.symm
      simpa [mapHas, mapKeys, h, h2] using ih

theorem mapGet_eq_none_iff (m : DataMap) (k : String) : mapGet m k = none ↔ k ∉ mapKeys m := by
  induction m with
  | nil => simp [mapGet, mapKeys]
  | cons e m ih =>
    obtain ⟨k0, v0⟩ := e
    by_cases h : k0 = k
    · simp [mapGet, mapKeys, h]
    · have h2 : ¬ k = k0 := fun e => h e.symm
      simpa [mapGet, mapKeys, h, h2] using ih

theorem mapGet_of_has (m : DataMap) (k : String) (h : mapHas m k = true) :
    ∃ v, mapGet m k = some v := by
  cases hg : mapGet m k with
  | some v => exact ⟨v, rfl⟩
  | none => exact absurd ((mapHas_iff m k).1 h) ((mapGet_eq_none_iff m k).1 hg)

theorem mapGet_of_not_has (m : DataMap) (k : String) (h : ¬ mapHas m k = true) :
    mapGet m k = none :=
  (mapGet_eq_none_iff m k).2 fun hk => h ((mapHas_iff m k).2 hk)

theorem mapKeys_mapSet (m : DataMap) (k : String) (v : ChartPoint) :
    mapKeys (mapSet m k v) = if k ∈ mapKeys m then mapKeys m else mapKeys m ++ [k] := by
  induction m with
  | nil => simp [mapSet, mapKeys]
  | cons e m ih =>
    obtain ⟨k0, v0⟩ := e
    by_cases h : k0 = k
    · simp [mapSet, mapKeys, h]
    · have h2 : ¬ k = k0 := fun e => h e.symm
      simp only [mapKeys] at ih
      by_cases hk : k ∈ List.map Prod.fst m
      · simp [mapSet, mapKeys, h, h2, ih, hk]
      · simp [mapSet, mapKeys, h, h2, ih, hk]

theorem mapGet_mapSet (m : DataMap) (k : String) (v : ChartPoint) (k1 : String) :
    mapGet (mapSet m k v) k1 = if k = k1 then some v else mapGet m k1 := by
  induction m with
  | nil => simp [mapSet, mapGet]
  | cons e m ih =>
    obtain ⟨k0, v0⟩ := e
    by_cases h : k0 = k
    · subst h
      by_cases h1 : k0 = k1 <;> simp [mapSet, mapGet, h1]
    · by_cases h1 : k0 = k1
      · subst h1
        have h2 : ¬ k = k0 := fun e => h e.symm
        simp [mapSet, mapGet, h, h2]
      · simp [mapSet, mapGet, h, h1, ih]

theorem mapKeys_mapModify (m : DataMap) (k : String) (f : ChartPoint → ChartPoint) :
    mapKeys (mapModify m k f) = mapKeys m := by
  unfold mapModify
  cases hg : mapGet m k with
  | none => rfl
  | some v =>
    have hk : k ∈ mapKeys m := by
      by_contra hk
      rw [(mapGet_eq_none_iff m k).2 hk] at hg
      exact Option.noConfusion hg
    simp [mapKeys_mapSet, hk]

theorem mapGet_mapModify (m : DataMap) (k : String) (f : ChartPoint → ChartPoint)
    (k1 : String) :
    mapGet (mapModify m k f) k1 = if k = k1 then (mapGet m k1).map f else mapGet m k1 := by
  unfold mapModify
  cases hg : mapGet m k with
  | none =>
    by_cases h : k = k1
    · subst h; simp [hg]
    · simp [h]
  | some v =>
    rw [mapGet_mapSet]
    by_cases h : k = k1
    · subst h; simp [hg]
    · simp [h]

theorem mapValues_eq_filterMap (m : DataMap) (hnd : (mapKeys m).Nodup) :
    mapValues m = (mapKeys m).filterMap (mapGet m) := by
  induction m with
  | nil => rfl
  | cons e m ih =>
    obtain ⟨k0, v0⟩ := e
    have hnd1 : k0 ∉ mapKeys m ∧ (mapKeys m).Nodup := by
      simpa [mapKeys] using hnd
    have hcongr : (mapKeys m).filterMap (mapGet ((k0, v0) :: m))
        = (mapKeys m).filterMap (mapGet m) := by
      apply List.filterMap_congr
      intro k hk
      have hne : ¬ k0 = k := fun e => hnd1.1 (e ▸ hk)
      simp [mapGet, hne]
    have hhead : mapGet ((k0, v0) :: m) k0 = some v0 := by simp [mapGet]
    calc mapValues ((k0, v0) :: m)
        = v0 :: mapValues m := rfl
      _ = v0 :: (mapKeys m).filterMap (mapGet m) := by rw [ih hnd1.2]
      _ = (k0 :: mapKeys m).filterMap (mapGet ((k0, v0) :: m)) := by
          rw [List.filterMap_cons, hhead, hcongr]
      _ = (mapKeys ((k0, v0) :: m)).filterMap (mapGet ((k0, v0) :: m)) := rfl

theorem mapSet_mapSet (m : DataMap) (k : String) (a b : ChartPoint) :
    mapSet (mapSet m k a) k b = mapSet m k b := by
  induction m with
  | nil => simp [mapSet]
  | cons e m ih =>
    obtain ⟨k0, v0⟩ := e
    by_cases h : k0 = k
    · simp [mapSet, h]
    · simp [mapSet, h, ih]

/-! ## Each callback succeeds and is a modification of one map entry -/

theorem forEach_ok {α σ : Type} (f : σ → α → Except JsError σ) (g : σ → α → σ)
    (xs : List α) (s : σ) (h : ∀ s1, ∀ x ∈ xs, f s1 x = .ok (g s1 x)) :
    forEach f xs s = .ok (xs.foldl g s) := by
  induction xs generalizing s with
  | nil => rfl
  | cons x xs ih =>
    have hx : f s x = .ok (g s x) := h s x (List.mem_cons_self _ _)
    simp only [forEach, hx, List.foldl_cons]
    exact ih (g s x) fun s1 y hy => h s1 y (List.mem_cons_of_mem _ hy)

theorem benchmarkStep_ok (curve : List EquityPoint) (hne : curve ≠ []) (m : DataMap)
    (pt : EquityPoint) :
    benchmarkStep curve m pt = .ok (mapModify m pt.date (benchPoint pt)) := by
  unfold benchmarkStep mapModify
  by_cases hh : mapHas m pt.date = true
  · obtain ⟨v, hv⟩ := mapGet_of_has m pt.date hh
    cases curve with
    | nil => exact absurd rfl hne
    | cons first rest => simp [hh, hv, benchPoint]
  · simp [hh, mapGet_of_not_has m pt.date hh]

theorem entryStep_ok (m : DataMap) (t : Trade) :
    entryStep m t = .ok (mapModify m t.entry_date entryPoint) := by
  unfold entryStep mapModify
  by_cases hh : mapHas m t.entry_date = true
  · obtain ⟨v, hv⟩ := mapGet_of_has m t.entry_date hh
    simp [hh, hv, mapGet_mapSet, mapSet_mapSet, entryPoint]
  · simp [hh, mapGet_of_not_has m t.entry_date hh]

theorem exitStep_ok (m : DataMap) (t : Trade) :
    exitStep m t = .ok (mapModify m t.exit_date exitPoint) := by
  unfold exitStep mapModify
  by_cases hh : mapHas m t.exit_date = true
  · obtain ⟨v, hv⟩ := mapGet_of_has m t.exit_date hh
    simp [hh, hv, mapGet_mapSet, mapSet_mapSet, exitPoint]
  · simp [hh, mapGet_of_not_has m t.exit_date hh]

theorem tradeStep_ok (m : DataMap) (t : Trade) :
    tradeStep m t
      = .ok (mapModify (mapModify m t.entry_date entryPoint) t.exit_date exitPoint) := by
  simp [tradeStep, entryStep_ok, exitStep_ok]

/-! ## The folds, key by key -/

theorem seedFold_keys (xs : List EquityPoint) (m : DataMap) (hnd : (mapKeys m).Nodup) :
    (mapKeys (xs.foldl (fun m pt => mapSet m pt.date (seedPoint pt)) m)).Nodup ∧
    ∀ d, d ∈ mapKeys (xs.foldl (fun m pt => mapSet m pt.date (seedPoint pt)) m)
      ↔ d ∈ mapKeys m ∨ d ∈ curveDates xs := by
  induction xs generalizing m with
  | nil => simpa [curveDates] using hnd
  | cons x xs ih =>
    have hnd1 : (mapKeys (mapSet m x.date (seedPoint x))).Nodup := by
      rw [mapKeys_mapSet]
      by_cases hk : x.date ∈ mapKeys m
      · simpa [hk] using hnd
      · simp only [hk, if_false]
        exact List.Nodup.append hnd (List.nodup_singleton _) (by simpa using hk)
    obtain ⟨h1, h2⟩ := ih (mapSet m x.date (seedPoint x)) hnd1
    refine ⟨h1, fun d => ?_⟩
    rw [List.foldl_cons, h2 d, mapKeys_mapSet]
    by_cases hk : x.date ∈ mapKeys m
    · simp only [hk, if_true, curveDates, List.map_cons, List.mem_cons]
      constructor
      · rintro (h | h)
        · exact Or.inl h
        · exact Or.inr (Or.inr h)
      · rintro (h | h | h)
        · exact Or.inl h
        · exact Or.inl (h ▸ hk)
        · exact Or.inr h
    · simp only [hk, if_false, curveDates, List.map_cons, List.mem_cons, List.mem_append,
        List.mem_singleton]
      tauto

theorem seedFold_get (xs : List EquityPoint) (m : DataMap) (d : String) :
    mapGet (xs.foldl (fun m pt => mapSet m pt.date (seedPoint pt)) m) d
      = match lastEntry xs d with
        | some q => some (seedPoint q)
        | none => mapGet m d := by
  induction xs generalizing m with
  | nil => rfl
  | cons x xs ih =>
    rw [List.foldl_cons, ih, mapGet_mapSet]
    cases hl : lastEntry xs d with
    | some q => simp [lastEntry, hl]
    | none =>
      by_cases hx : x.date = d
      · simp [lastEntry, hl, hx]
      · simp [lastEntry, hl, hx]

theorem benchFold (xs : List EquityPoint) (m : DataMap) :
    mapKeys (xs.foldl (fun m pt => mapModify m pt.date (benchPoint pt)) m) = mapKeys m ∧
    ∀ d, mapGet (xs.foldl (fun m pt => mapModify m pt.date (benchPoint pt)) m) d
      = (mapGet m d).map fun p => xs.foldl (benchAt d) p := by
  induction xs generalizing m with
  | nil => simp
  | cons x xs ih =>
    obtain ⟨h1, h2⟩ := ih (mapModify m x.date (benchPoint x))
    refine ⟨by rw [List.foldl_cons, h1, mapKeys_mapModify], fun d => ?_⟩
    rw [List.foldl_cons, h2 d, mapGet_mapModify]
    by_cases hx : x.date = d
    · cases hg : mapGet m d <;> simp [hx, benchAt]
    · cases hg : mapGet m d <;> simp [hx, benchAt]

theorem tradeFold (ts : List Trade) (m : DataMap) :
    mapKeys (ts.foldl
        (fun m t => mapModify (mapModify m t.entry_date entryPoint) t.exit_date exitPoint) m)
      = mapKeys m ∧
    ∀ d, mapGet (ts.foldl
        (fun m t => mapModify (mapModify m t.entry_date entryPoint) t.exit_date exitPoint) m) d
      = (mapGet m d).map fun p => ts.foldl (tradeAt d) p := by
  induction ts generalizing m with
  | nil => simp
  | cons t ts ih =>
    obtain ⟨h1, h2⟩ :=
      ih (mapModify (mapModify m t.entry_date entryPoint) t.exit_date exitPoint)
    refine ⟨by rw [List.foldl_cons, h1, mapKeys_mapModify, mapKeys_mapModify], fun d => ?_⟩
    rw [List.foldl_cons, h2 d, mapGet_mapModify, mapGet_mapModify]
    by_cases he : t.entry_date = d <;> by_cases hx : t.exit_date = d <;>
      cases hg : mapGet m d <;> simp [he, hx, tradeAt]

/-! ## Closed form of the routine -/

theorem seedStage_ok (curve : List EquityPoint) (m : DataMap) :
    forEach seedStep curve m
      = .ok (curve.foldl (fun m pt => mapSet m pt.date (seedPoint pt)) m) :=
  forEach_ok seedStep (fun m pt => mapSet m pt.date (seedPoint pt)) curve m
    fun _ _ _ => rfl

theorem benchmarkStep_forEach_ok (curve : List EquityPoint) (m : DataMap) :
    forEach (benchmarkStep curve) curve m
      = .ok (curve.foldl (fun m pt => mapModify m pt.date (benchPoint pt)) m) := by
  apply forEach_ok
  intro s1 x hx
  exact benchmarkStep_ok curve (List.ne_nil_of_mem hx) s1 x

theorem benchmarkStage_ok (r : BacktestResult) (m : DataMap) :
    benchmarkStage r.benchmark m
      = .ok ((benchmarkCurve r).foldl (fun m pt => mapModify m pt.date (benchPoint pt)) m) := by
  unfold benchmarkStage benchmarkCurve
  cases r.benchmark with
  | none => rfl
  | some b =>
    cases hb : b.equity_curve with
    | none => simp only [hb, List.foldl_nil]
    | some curve => simpa only [hb] using benchmarkStep_forEach_ok curve m

theorem tradeStage_ok (r : BacktestResult) (m : DataMap) :
    tradeStage r.trades m
      = .ok ((tradeList r).foldl
          (fun m t => mapModify (mapModify m t.entry_date entryPoint) t.exit_date exitPoint)
          m) := by
  unfold tradeStage tradeList
  cases r.trades with
  | none => rfl
  | some ts => exact forEach_ok tradeStep _ ts m fun s1 t _ => tradeStep_ok s1 t

theorem buildMap_spec (r : BacktestResult) :
    ∃ M, buildMap r = .ok M ∧ mapKeys M = seedKeys r.equity_curve ∧
      ∀ d, mapGet M d = finalPoint r d := by
  have hM : buildMap r = .ok ((tradeList r).foldl
      (fun m t => mapModify (mapModify m t.entry_date entryPoint) t.exit_date exitPoint)
      ((benchmarkCurve r).foldl (fun m pt => mapModify m pt.date (benchPoint pt))
        (r.equity_curve.foldl (fun m pt => mapSet m pt.date (seedPoint pt)) []))) := by
    unfold buildMap
    rw [seedStage_ok]
    simp only [benchmarkStage_ok, tradeStage_ok]
  refine ⟨_, hM, ?_, ?_⟩
  · rw [(tradeFold _ _).1, (benchFold _ _).1]
    rfl
  · intro d
    rw [(tradeFold _ _).2, (benchFold _ _).2, seedFold_get]
    unfold finalPoint
    cases lastEntry r.equity_curve d <;> simp [mapGet]

theorem seedKeys_nodup (curve : List EquityPoint) : (seedKeys curve).Nodup :=
  (seedFold_keys curve [] List.nodup_nil).1

theorem mem_seedKeys (curve : List EquityPoint) (d : String) :
    d ∈ seedKeys curve ↔ d ∈ curveDates curve := by
  unfold seedKeys
  rw [(seedFold_keys curve [] List.nodup_nil).2]
  simp [mapKeys]

theorem lastEntry_eq_none_iff (curve : List EquityPoint) (d : String) :
    lastEntry curve d = none ↔ d ∉ curveDates curve := by
  induction curve with
  | nil => simp [lastEntry, curveDates]
  | cons x xs ih =>
    simp only [curveDates] at ih
    cases hl : lastEntry xs d with
    | some q =>
      have hm : d ∈ List.map EquityPoint.date xs := by
        by_contra hc
        rw [ih.2 hc] at hl
        exact Option.noConfusion hl
      simp [lastEntry, hl, curveDates, hm]
    | none =>
      have hm : d ∉ List.map EquityPoint.date xs := ih.1 hl
      by_cases hx : x.date = d
      · simp [lastEntry, hl, hx, curveDates]
      · have hx2 : ¬ d = x.date := fun e => hx e.symm
        simpa [lastEntry, hl, hx, hx2, curveDates] using hm

theorem lastEntry_some (curve : List EquityPoint) (d : String) (q : EquityPoint)
    (h : lastEntry curve d = some q) : q ∈ curve ∧ q.date = d := by
  induction curve with
  | nil => simp [lastEntry] at h
  | cons x xs ih =>
    cases hl : lastEntry xs d with
    | some q1 =>
      simp only [lastEntry, hl, Option.some.injEq] at h
      subst h
      exact ⟨List.mem_cons_of_mem _ (ih hl).1, (ih hl).2⟩
    | none =>
      by_cases hx : x.date = d
      · simp only [lastEntry, hl, hx, if_true, Option.some.injEq] at h
        subst h
        exact ⟨List.mem_cons_self _ _, hx⟩
      · simp [lastEntry, hl, hx] at h

theorem prepareChartData_eq (r : BacktestResult) :
    prepareChartData (some r)
      = .ok (arraySort ((seedKeys r.equity_curve).filterMap (finalPoint r))) := by
  obtain ⟨M, hM, hk, hg⟩ := buildMap_spec r
  have hfun : mapGet M = finalPoint r := funext hg
  have hnd : (mapKeys M).Nodup := hk ▸ seedKeys_nodup r.equity_curve
  simp only [prepareChartData, hM, mapValues_eq_filterMap M hnd, hfun, hk]

/-! ## The sort -/

theorem sortInsert_perm (a : ChartPoint) (l : List ChartPoint) :
    (sortInsert a l).Perm (a :: l) := by
  induction l with
  | nil => exact List.Perm.refl _
  | cons b l ih =>
    unfold sortInsert
    by_cases h : sortCompare a b ≤ 0
    · simp [h]
    · simp only [h, if_false]
      exact (List.Perm.cons b ih).trans (List.Perm.swap a b l)

theorem arraySort_perm (l : List ChartPoint) : (arraySort l).Perm l := by
  induction l with
  | nil => exact List.Perm.refl _
  | cons a l ih => exact (sortInsert_perm a (arraySort l)).trans (List.Perm.cons a ih)

theorem sortCompare_le_iff (a b : ChartPoint) (x y : Int) (ha : dateValue a.date = some x)
    (hb : dateValue b.date = some y) : sortCompare a b ≤ 0 ↔ x ≤ y := by
  simp only [sortCompare, compareFn, ha, hb]
  omega

theorem sortInsert_sorted (a : ChartPoint) (l : List ChartPoint)
    (ha : ∃ x, dateValue a.date = some x)
    (hl : ∀ b ∈ l, ∃ y, dateValue b.date = some y)
    (hs : l.Pairwise dateLe) : (sortInsert a l).Pairwise dateLe := by
  induction l with
  | nil => simp [sortInsert]
  | cons b l ih =>
    obtain ⟨x, hx⟩ := ha
    obtain ⟨y, hy⟩ := hl b (List.mem_cons_self _ _)
    have hs1 := List.pairwise_cons.1 hs
    unfold sortInsert
    by_cases h : sortCompare a b ≤ 0
    · have hxy : x ≤ y := (sortCompare_le_iff a b x y hx hy).1 h
      simp only [h, if_true]
      refine List.pairwise_cons.2 ⟨?_, hs⟩
      intro c hc
      rcases List.mem_cons.1 hc with rfl | hc
      · exact ⟨x, y, hx, hy, hxy⟩
      · obtain ⟨y1, z, hy1, hz, hyz⟩ := hs1.1 c hc
        have : y1 = y := Option.some.inj (hy1.symm.trans hy)
        exact ⟨x, z, hx, hz, by omega⟩
    · have hxy : ¬ x ≤ y := fun hc => h ((sortCompare_le_iff a b x y hx hy).2 hc)
      simp only [h, if_false]
      refine List.pairwise_cons.2 ⟨?_, ih (fun c hc => hl c (List.mem_cons_of_mem _ hc)) hs1.2⟩
      intro c hc
      rcases List.mem_cons.1 ((sortInsert_perm a l).subset hc) with rfl | hc
      · exact ⟨y, x, hy, hx, by omega⟩
      · exact hs1.1 c hc

theorem arraySort_sorted (l : List ChartPoint)
    (hl : ∀ b ∈ l, ∃ y, dateValue b.date = some y) : (arraySort l).Pairwise dateLe := by
  induction l with
  | nil => exact List.Pairwise.nil
  | cons a l ih =>
    have hrest : ∀ b ∈ l, ∃ y, dateValue b.date = some y :=
      fun b hb => hl b (List.mem_cons_of_mem _ hb)
    refine sortInsert_sorted a (arraySort l) (hl a (List.mem_cons_self _ _)) ?_ (ih hrest)
    intro b hb
    exact hrest b ((arraySort_perm l).subset hb)

/-! ## The folds on one chart point -/

theorem benchAt_foldl_fields (xs : List EquityPoint) (d : String) (p : ChartPoint) :
    (xs.foldl (benchAt d) p).date = p.date ∧ (xs.foldl (benchAt d) p).equity = p.equity ∧
    (xs.foldl (benchAt d) p).buy_marker = p.buy_marker ∧
    (xs.foldl (benchAt d) p).sell_marker = p.sell_marker ∧
    (xs.foldl (benchAt d) p).action = p.action := by
  induction xs generalizing p with
  | nil => simp
  | cons x xs ih =>
    rw [List.foldl_cons]
    obtain ⟨h1, h2, h3, h4, h5⟩ := ih (benchAt d p x)
    rw [h1, h2, h3, h4, h5]
    unfold benchAt benchPoint
    split <;> simp

theorem benchAt_foldl_values (xs : List EquityPoint) (d : String) (p : ChartPoint) :
    (xs.foldl (benchAt d) p).benchmark
      = (match lastEntry xs d with
         | some q => some q.equity
         | none => p.benchmark) ∧
    (xs.foldl (benchAt d) p).price
      = (match lastEntry xs d with
         | some q => q.equity
         | none => p.price) := by
  induction xs generalizing p with
  | nil => simp [lastEntry]
  | cons x xs ih =>
    rw [List.foldl_cons]
    obtain ⟨h1, h2⟩ := ih (benchAt d p x)
    rw [h1, h2]
    cases hl : lastEntry xs d with
    | some q => simp [lastEntry, hl]
    | none =>
      by_cases hx : x.date = d
      · simp [lastEntry, hl, hx, benchAt, benchPoint]
      · simp [lastEntry, hl, hx, benchAt]

theorem tradeAt_fields (d : String) (p : ChartPoint) (t : Trade) :
    (tradeAt d p t).date = p.date ∧ (tradeAt d p t).equity = p.equity ∧
    (tradeAt d p t).price = p.price ∧ (tradeAt d p t).benchmark = p.benchmark := by
  unfold tradeAt entryPoint exitPoint
  by_cases he : t.entry_date = d <;> by_cases hx : t.exit_date = d <;> simp [he, hx]

theorem tradeAt_foldl_fields (ts : List Trade) (d : String) (p : ChartPoint) :
    (ts.foldl (tradeAt d) p).date = p.date ∧ (ts.foldl (tradeAt d) p).equity = p.equity ∧
    (ts.foldl (tradeAt d) p).price = p.price ∧
    (ts.foldl (tradeAt d) p).benchmark = p.benchmark := by
  induction ts generalizing p with
  | nil => simp
  | cons t ts ih =>
    rw [List.foldl_cons]
    obtain ⟨h1, h2, h3, h4⟩ := ih (tradeAt d p t)
    obtain ⟨g1, g2, g3, g4⟩ := tradeAt_fields d p t
    rw [h1, h2, h3, h4, g1, g2, g3, g4]
    simp

theorem finalPoint_some (r : BacktestResult) (d : String) (p : ChartPoint)
    (h : finalPoint r d = some p) :
    ∃ e, lastEntry r.equity_curve d = some e ∧
      p = (tradeList r).foldl (tradeAt d) ((benchmarkCurve r).foldl (benchAt d) (seedPoint e)) := by
  unfold finalPoint at h
  cases hl : lastEntry r.equity_curve d with
  | none => simp [hl] at h
  | some e =>
    refine ⟨e, rfl, ?_⟩
    simpa [hl] using h.symm

theorem finalPoint_date (r : BacktestResult) (d : String) (p : ChartPoint)
    (h : finalPoint r d = some p) : p.date = d := by
  obtain ⟨e, he, hp⟩ := finalPoint_some r d p h
  rw [hp, (tradeAt_foldl_fields _ _ _).1, (benchAt_foldl_fields _ _ _).1]
  exact (lastEntry_some _ _ _ he).2

theorem finalPoint_isSome (r : BacktestResult) (d : String)
    (h : d ∈ curveDates r.equity_curve) : ∃ p, finalPoint r d = some p := by
  unfold finalPoint
  cases hl : lastEntry r.equity_curve d with
  | none => exact absurd h ((lastEntry_eq_none_iff _ _).1 hl)
  | some e => exact ⟨_, rfl⟩

theorem filterMap_finalPoint_dates (r : BacktestResult) (ks : List String)
    (hk : ∀ d ∈ ks, d ∈ curveDates r.equity_curve) :
    (ks.filterMap (finalPoint r)).map ChartPoint.date = ks := by
  induction ks with
  | nil => rfl
  | cons k ks ih =>
    obtain ⟨p, hp⟩ := finalPoint_isSome r k (hk k (List.mem_cons_self _ _))
    rw [List.filterMap_cons, hp]
    simp only [List.map_cons, finalPoint_date r k p hp]
    rw [ih fun d hd => hk d (List.mem_cons_of_mem _ hd)]

/-! ## `new Date` is injective on ISO calendar dates -/

theorem char_eq_of_toNat (c c1 : Char) (h : c.toNat = c1.toNat) : c = c1 := by
  apply Char.ext
  cases hc : c.val with
  | mk v =>
    cases hc1 : c1.val with
    | mk v1 =>
      have h2 : v.toNat = v1.toNat := by simpa [Char.toNat, UInt32.toNat, hc, hc1] using h
      have h3 : v = v1 := BitVec.eq_of_toNat_eq h2
      rw [h3]

theorem digitValue_some (c : Char) (n : Nat) (h : digitValue c = some n) :
    48 ≤ c.toNat ∧ c.toNat ≤ 57 ∧ n + 48 = c.toNat := by
  unfold digitValue at h
  split at h
  · rename_i hc
    have := Option.some.inj h
    omega
  · exact Option.noConfusion h

theorem digitValue_inj (c c1 : Char) (n : Nat) (h : digitValue c = some n)
    (h1 : digitValue c1 = some n) : c = c1 := by
  have a := digitValue_some c n h
  have b := digitValue_some c1 n h1
  exact char_eq_of_toNat c c1 (by omega)

theorem parseFields_some (s : String) (y m d : Nat) (h : parseFields s = some (y, m, d)) :
    ∃ y1 y2 y3 y4 m1 m2 d1 d2 a b c e f g i j,
      s.data = [y1, y2, y3, y4, '-', m1, m2, '-', d1, d2] ∧
      digitValue y1 = some a ∧ digitValue y2 = some b ∧ digitValue y3 = some c ∧
      digitValue y4 = some e ∧ digitValue m1 = some f ∧ digitValue m2 = some g ∧
      digitValue d1 = some i ∧ digitValue d2 = some j ∧
      y = 1000 * a + 100 * b + 10 * c + e ∧ m = 10 * f + g ∧ d = 10 * i + j := by
  unfold parseFields at h
  split at h
  · rename_i y1 y2 y3 y4 s1 m1 m2 s2 d1 d2 hdata
    split at h
    · rename_i hsep
      split at h
      · rename_i a b c e f g i j ha hb hc he hf hg hi hj
        simp only [Option.some.injEq, Prod.mk.injEq] at h
        refine ⟨y1, y2, y3, y4, m1, m2, d1, d2, a, b, c, e, f, g, i, j, ?_, ha, hb, hc, he, hf,
          hg, hi, hj, h.1.symm, h.2.1.symm, h.2.2.symm⟩
        rw [hdata, hsep.1, hsep.2]
      · exact Option.noConfusion h
    · exact Option.noConfusion h
  · exact Option.noConfusion h

theorem parseFields_inj (s t : String) (y m d : Nat) (hs : parseFields s = some (y, m, d))
    (ht : parseFields t = some (y, m, d)) : s = t := by
  obtain ⟨y1, y2, y3, y4, m1, m2, d1, d2, a, b, c, e, f, g, i, j, hdata, ha, hb, hc, he, hf,
    hg, hi, hj, hy, hm, hd⟩ := parseFields_some s y m d hs
  obtain ⟨z1, z2, z3, z4, n1, n2, e1, e2, a1, b1, c1, e3, f1, g1, i1, j1, hdata1, ha1, hb1,
    hc1, he1, hf1, hg1, hi1, hj1, hy1, hm1, hd1⟩ := parseFields_some t y m d ht
  have ba := digitValue_some _ _ ha
  have bb := digitValue_some _ _ hb
  have bc := digitValue_some _ _ hc
  have be := digitValue_some _ _ he
  have bf := digitValue_some _ _ hf
  have bg := digitValue_some _ _ hg
  have bi := digitValue_some _ _ hi
  have bj := digitValue_some _ _ hj
  have ba1 := digitValue_some _ _ ha1
  have bb1 := digitValue_some _ _ hb1
  have bc1 := digitValue_some _ _ hc1
  have be1 := digitValue_some _ _ he1
  have bf1 := digitValue_some _ _ hf1
  have bg1 := digitValue_some _ _ hg1
  have bi1 := digitValue_some _ _ hi1
  have bj1 := digitValue_some _ _ hj1
  have e1a : a = a1 := by omega
  have e1b : b = b1 := by omega
  have e1c : c = c1 := by omega
  have e1e : e = e3 := by omega
  have e1f : f = f1 := by omega
  have e1g : g = g1 := by omega
  have e1i : i = i1 := by omega
  have e1j : j = j1 := by omega
  subst e1a e1b e1c e1e e1f e1g e1i e1j
  apply String.ext
  rw [hdata, hdata1, digitValue_inj _ _ _ ha ha1, digitValue_inj _ _ _ hb hb1,
    digitValue_inj _ _ _ hc hc1, digitValue_inj _ _ _ he he1, digitValue_inj _ _ _ hf hf1,
    digitValue_inj _ _ _ hg hg1, digitValue_inj _ _ _ hi hi1, digitValue_inj _ _ _ hj hj1]

theorem dayFromYear_succ (y : Nat) :
    dayFromYear ((y : Int) + 1) = dayFromYear y + (if inLeapYear y then 366 else 365) := by
  have h4 : ((y : Int) + 1 - 1969) / 4 = ((y : Int) - 1969) / 4 + (if y % 4 = 0 then 1 else 0) := by
    split <;> omega
  have h100 : ((y : Int) + 1 - 1901) / 100
      = ((y : Int) - 1901) / 100 + (if y % 100 = 0 then 1 else 0) := by
    split <;> omega
  have h400 : ((y : Int) + 1 - 1601) / 400
      = ((y : Int) - 1601) / 400 + (if y % 400 = 0 then 1 else 0) := by
    split <;> omega
  have d1 : y % 100 = 0 → y % 4 = 0 := by omega
  have d2 : y % 400 = 0 → y % 100 = 0 := by omega
  unfold dayFromYear
  rw [h4, h100, h400]
  by_cases c4 : y % 4 = 0 <;> by_cases c100 : y % 100 = 0 <;> by_cases c400 : y % 400 = 0 <;>
    simp [inLeapYear, c4, c100, c400] <;> omega

theorem dayFromYear_mono (y z : Int) (h : y ≤ z) : dayFromYear y ≤ dayFromYear z := by
  unfold dayFromYear
  omega

theorem dayOfYear_bound (y m d : Nat) (hm1 : 1 ≤ m) (hm2 : m ≤ 12) (hd : d ≤ daysInMonth y m) :
    daysBeforeMonth y m + d ≤ (if inLeapYear y then 366 else 365) := by
  by_cases hL : inLeapYear y = true <;> interval_cases m <;>
    simp only [daysBeforeMonth, daysInMonth, hL] at hd ⊢ <;> simp at hd ⊢ <;> omega

theorem daysBeforeMonth_succ (y k : Nat) (hk : 1 ≤ k) :
    daysBeforeMonth y (k + 1) = daysBeforeMonth y k + daysInMonth y k := by
  cases k with
  | zero => omega
  | succ j => rfl

theorem daysBeforeMonth_mono (y m n : Nat) (h : m ≤ n) :
    daysBeforeMonth y m ≤ daysBeforeMonth y n := by
  induction n with
  | zero =>
    have : m = 0 := by omega
    subst this
    exact Nat.le_refl _
  | succ n ih =>
    by_cases hm : m = n + 1
    · subst hm
      exact Nat.le_refl _
    · have h1 : daysBeforeMonth y m ≤ daysBeforeMonth y n := ih (by omega)
      cases n with
      | zero =>
        have : m = 0 := by omega
        subst this
        simp [daysBeforeMonth]
      | succ j =>
        rw [daysBeforeMonth_succ y (j + 1) (by omega)]
        omega

theorem dayOfYear_lt (y m d m1 d1 : Nat) (hm1 : 1 ≤ m) (hd : d ≤ daysInMonth y m)
    (he1 : 1 ≤ d1) (hlt : m < m1) :
    daysBeforeMonth y m + d < daysBeforeMonth y m1 + d1 := by
  have h1 := daysBeforeMonth_succ y m hm1
  have h2 := daysBeforeMonth_mono y (m + 1) m1 hlt
  omega

theorem dayOfYear_inj (y m d m1 d1 : Nat) (hm1 : 1 ≤ m) (hd1 : 1 ≤ d)
    (hd : d ≤ daysInMonth y m) (hn1 : 1 ≤ m1) (he1 : 1 ≤ d1)
    (he : d1 ≤ daysInMonth y m1)
    (h : daysBeforeMonth y m + d = daysBeforeMonth y m1 + d1) : m = m1 ∧ d = d1 := by
  rcases Nat.lt_trichotomy m m1 with hlt | heq | hgt
  · have := dayOfYear_lt y m d m1 d1 hm1 hd he1 hlt
    omega
  · subst heq
    exact ⟨rfl, by omega⟩
  · have := dayOfYear_lt y m1 d1 m d hn1 he hd1 hgt
    omega

theorem dayNumber_lt (y m d y1 m1 d1 : Nat) (hm1 : 1 ≤ m) (hm2 : m ≤ 12)
    (hd : d ≤ daysInMonth y m) (he1 : 1 ≤ d1) (hlt : y < y1) :
    dayFromYear (y : Int) + (daysBeforeMonth y m : Int) + ((d : Int) - 1)
      < dayFromYear (y1 : Int) + (daysBeforeMonth y1 m1 : Int) + ((d1 : Int) - 1) := by
  have h1 := dayFromYear_succ y
  have h2 := dayFromYear_mono ((y : Int) + 1) (y1 : Int) (by omega)
  have h3 := dayOfYear_bound y m d hm1 hm2 hd
  split at h1 <;> rename_i hL <;> simp only [hL] at h3 <;> simp at h3 <;> omega

theorem dateValue_some (s : String) (x : Int) (h : dateValue s = some x) :
    ∃ y m d, parseFields s = some (y, m, d) ∧ 1 ≤ m ∧ m ≤ 12 ∧ 1 ≤ d ∧ d ≤ daysInMonth y m ∧
      x = (dayFromYear (y : Int) + (daysBeforeMonth y m : Int) + ((d : Int) - 1)) * msPerDay := by
  unfold dateValue at h
  split at h
  · rename_i y m d hp
    split at h
    · rename_i hv
      exact ⟨y, m, d, hp, hv.1, hv.2.1, hv.2.2.1, hv.2.2.2, (Option.some.inj h).symm⟩
    · exact Option.noConfusion h
  · exact Option.noConfusion h

theorem dateValue_inj (s t : String) (x : Int) (hs : dateValue s = some x)
    (ht : dateValue t = some x) : s = t := by
  obtain ⟨y, m, d, hp, hm1, hm2, hd1, hd2, hx⟩ := dateValue_some s x hs
  obtain ⟨y1, m1, d1, hp1, hn1, hn2, he1, he2, hx1⟩ := dateValue_some t x ht
  have hday : dayFromYear (y : Int) + (daysBeforeMonth y m : Int) + ((d : Int) - 1)
      = dayFromYear (y1 : Int) + (daysBeforeMonth y1 m1 : Int) + ((d1 : Int) - 1) := by
    have hms : msPerDay ≠ 0 := by decide
    exact mul_right_cancel₀ hms (hx.symm.trans hx1)
  have hy : y = y1 := by
    rcases Nat.lt_trichotomy y y1 with hlt | heq | hgt
    · have := dayNumber_lt y m d y1 m1 d1 hm1 hm2 hd2 he1 hlt
      omega
    · exact heq
    · have := dayNumber_lt y1 m1 d1 y m d hn1 hn2 he2 hd1 hgt
      omega
  subst hy
  have hmd := dayOfYear_inj y m d m1 d1 hm1 hd1 hd2 hn1 he1 he2 (by omega)
  obtain ⟨rfl, rfl⟩ := hmd
  exact parseFields_inj s t y m d hp hp1

theorem dateValue_of_isIsoDate (s : String) (h : isIsoDate s = true) :
    ∃ x, dateValue s = some x := by
  unfold isIsoDate at h
  unfold dateValue
  split at h
  · rename_i y m d hp
    simp only [decide_eq_true_eq] at h
    simp [hp, h]
  · exact absurd h (by simp)

/-! ## The returned sequence -/

theorem output_spec (r : BacktestResult) :
    ∃ out, prepareChartData (some r) = .ok out ∧
      (out.map ChartPoint.date).Nodup ∧
      (∀ d, d ∈ out.map ChartPoint.date ↔ d ∈ curveDates r.equity_curve) ∧
      (∀ p, p ∈ out → finalPoint r p.date = some p) ∧
      (∀ d p, finalPoint r d = some p → p ∈ out) ∧
      ((∀ d ∈ curveDates r.equity_curve, isIsoDate d = true) → out.Pairwise dateLe) := by
  have hperm := arraySort_perm ((seedKeys r.equity_curve).filterMap (finalPoint r))
  have hdates := filterMap_finalPoint_dates r (seedKeys r.equity_curve)
    fun d hd => (mem_seedKeys _ d).1 hd
  have hpd : ((arraySort ((seedKeys r.equity_curve).filterMap (finalPoint r))).map
      ChartPoint.date).Perm (seedKeys r.equity_curve) := by
    have := hperm.map ChartPoint.date
    rwa [hdates] at this
  have hmem : ∀ p, p ∈ arraySort ((seedKeys r.equity_curve).filterMap (finalPoint r)) →
      finalPoint r p.date = some p := by
    intro p hp
    obtain ⟨d, _, hd⟩ := List.mem_filterMap.1 (hperm.subset hp)
    rw [finalPoint_date r d p hd]
    exact hd
  refine ⟨_, prepareChartData_eq r, ?_, ?_, hmem, ?_, ?_⟩
  · exact hpd.nodup_iff.2 (seedKeys_nodup _)
  · intro d
    rw [hpd.mem_iff, mem_seedKeys]
  · intro d p hd
    apply hperm.symm.subset
    refine List.mem_filterMap.2 ⟨d, ?_, hd⟩
    obtain ⟨e, he, _⟩ := finalPoint_some r d p hd
    rw [mem_seedKeys]
    by_contra hc
    rw [(lastEntry_eq_none_iff _ _).2 hc] at he
    exact Option.noConfusion he
  · intro hiso
    apply arraySort_sorted
    intro b hb
    obtain ⟨d, hd, hfd⟩ := List.mem_filterMap.1 hb
    rw [finalPoint_date r d b hfd]
    exact dateValue_of_isIsoDate d (hiso d ((mem_seedKeys _ d).1 hd))

theorem finalPoint_fields (r : BacktestResult) (d : String) (p : ChartPoint)
    (h : finalPoint r d = some p) :
    ∃ e, lastEntry r.equity_curve d = some e ∧ p.date = d ∧ p.equity = e.equity ∧
      p.benchmark = (match lastEntry (benchmarkCurve r) d with
        | some q => some q.equity
        | none => none) ∧
      p.price = (match lastEntry (benchmarkCurve r) d with
        | some q => q.equity
        | none => 0) := by
  obtain ⟨e, he, hp⟩ := finalPoint_some r d p h
  refine ⟨e, he, finalPoint_date r d p h, ?_, ?_, ?_⟩
  · rw [hp, (tradeAt_foldl_fields _ _ _).2.1, (benchAt_foldl_fields _ _ _).2.1]
    rfl
  · rw [hp, (tradeAt_foldl_fields _ _ _).2.2.2, (benchAt_foldl_values _ _ _).1]
    rfl
  · rw [hp, (tradeAt_foldl_fields _ _ _).2.2.1, (benchAt_foldl_values _ _ _).2]
    rfl

/-! ## The trade stage on one chart point -/

theorem tradeAt_noop (d : String) (p : ChartPoint) (t : Trade) (h1 : t.entry_date ≠ d)
    (h2 : t.exit_date ≠ d) : tradeAt d p t = p := by
  simp [tradeAt, h1, h2]

theorem tradeAt_foldl_buy (ts : List Trade) (d : String) (p : ChartPoint) :
    (ts.foldl (tradeAt d) p).buy_marker
      = if ∃ t ∈ ts, t.entry_date = d then some p.price else p.buy_marker := by
  induction ts generalizing p with
  | nil => simp
  | cons t ts ih =>
    rw [List.foldl_cons, ih, (tradeAt_fields d p t).2.2.1]
    by_cases hex : ∃ u ∈ ts, u.entry_date = d
    · have hex2 : ∃ u ∈ t :: ts, u.entry_date = d := by
        obtain ⟨u, hu, hud⟩ := hex
        exact ⟨u, List.mem_cons_of_mem _ hu, hud⟩
      rw [if_pos hex, if_pos hex2]
    · rw [if_neg hex]
      by_cases he : t.entry_date = d
      · have hex2 : ∃ u ∈ t :: ts, u.entry_date = d := ⟨t, List.mem_cons_self _ _, he⟩
        rw [if_pos hex2]
        by_cases hx : t.exit_date = d <;> simp [tradeAt, entryPoint, exitPoint, he, hx]
      · have hex2 : ¬ ∃ u ∈ t :: ts, u.entry_date = d := by
          rintro ⟨u, hu, hud⟩
          rcases List.mem_cons.1 hu with rfl | hu
          · exact he hud
          · exact hex ⟨u, hu, hud⟩
        rw [if_neg hex2]
        by_cases hx : t.exit_date = d <;> simp [tradeAt, exitPoint, he, hx]

theorem tradeAt_foldl_sell (ts : List Trade) (d : String) (p : ChartPoint) :
    (ts.foldl (tradeAt d) p).sell_marker
      = if ∃ t ∈ ts, t.exit_date = d then some p.price else p.sell_marker := by
  induction ts generalizing p with
  | nil => simp
  | cons t ts ih =>
    rw [List.foldl_cons, ih, (tradeAt_fields d p t).2.2.1]
    by_cases hex : ∃ u ∈ ts, u.exit_date = d
    · have hex2 : ∃ u ∈ t :: ts, u.exit_date = d := by
        obtain ⟨u, hu, hud⟩ := hex
        exact ⟨u, List.mem_cons_of_mem _ hu, hud⟩
      rw [if_pos hex, if_pos hex2]
    · rw [if_neg hex]
      by_cases hx : t.exit_date = d
      · have hex2 : ∃ u ∈ t :: ts, u.exit_date = d := ⟨t, List.mem_cons_self _ _, hx⟩
        rw [if_pos hex2]
        by_cases he : t.entry_date = d <;> simp [tradeAt, entryPoint, exitPoint, he, hx]
      · have hex2 : ¬ ∃ u ∈ t :: ts, u.exit_date = d := by
          rintro ⟨u, hu, hud⟩
          rcases List.mem_cons.1 hu with rfl | hu
          · exact hx hud
          · exact hex ⟨u, hu, hud⟩
        rw [if_neg hex2]
        by_cases he : t.entry_date = d <;> simp [tradeAt, entryPoint, he, hx]

theorem tradeAt_foldl_keeps_buy (ts : List Trade) (d : String) (p : ChartPoint)
    (hp : p.action = some "BUY") (hts : ∀ u ∈ ts, u.exit_date ≠ d) :
    (ts.foldl (tradeAt d) p).action = some "BUY" := by
  induction ts generalizing p with
  | nil => exact hp
  | cons t ts ih =>
    rw [List.foldl_cons]
    apply ih _ _ fun u hu => hts u (List.mem_cons_of_mem _ hu)
    have hx : t.exit_date ≠ d := hts t (List.mem_cons_self _ _)
    by_cases he : t.entry_date = d <;> simp [tradeAt, entryPoint, he, hx, hp]

theorem tradeAt_foldl_keeps_sell (ts : List Trade) (d : String) (p : ChartPoint)
    (hp : p.action = some "SELL") (hts : ∀ u ∈ ts, u.entry_date ≠ d) :
    (ts.foldl (tradeAt d) p).action = some "SELL" := by
  induction ts generalizing p with
  | nil => exact hp
  | cons t ts ih =>
    rw [List.foldl_cons]
    apply ih _ _ fun u hu => hts u (List.mem_cons_of_mem _ hu)
    have he : t.entry_date ≠ d := hts t (List.mem_cons_self _ _)
    by_cases hx : t.exit_date = d <;> simp [tradeAt, exitPoint, he, hx, hp]

theorem finalPoint_trades (r : BacktestResult) (d : String) (p : ChartPoint)
    (h : finalPoint r d = some p) :
    ∃ p0 : ChartPoint, p = (tradeList r).foldl (tradeAt d) p0 := by
  obtain ⟨e, _, hp⟩ := finalPoint_some r d p h
  exact ⟨_, hp⟩

theorem output_point (r : BacktestResult) (out : List ChartPoint)
    (hfp : ∀ p, p ∈ out → finalPoint r p.date = some p)
    (hin : ∀ d p, finalPoint r d = some p → p ∈ out) (d : String)
    (hd : d ∈ curveDates r.equity_curve) :
    ∃ p ∈ out, p.date = d ∧ finalPoint r d = some p ∧ ∀ p1 ∈ out, p1.date = d → p1 = p := by
  obtain ⟨p, hp⟩ := finalPoint_isSome r d hd
  refine ⟨p, hin d p hp, finalPoint_date r d p hp, hp, ?_⟩
  intro p1 hp1 hp1d
  have := hfp p1 hp1
  rw [hp1d, hp] at this
  exact (Option.some.inj this).symm

theorem finalPoint_decomp (r : BacktestResult) (d : String) (p : ChartPoint)
    (h : finalPoint r d = some p) :
    ∃ p0 : ChartPoint, p0.action = none ∧ p0.buy_marker = none ∧ p0.sell_marker = none ∧
      p = (tradeList r).foldl (tradeAt d) p0 := by
  obtain ⟨e, _, hp⟩ := finalPoint_some r d p h
  refine ⟨_, ?_, ?_, ?_, hp⟩
  · rw [(benchAt_foldl_fields _ _ _).2.2.2.2]
    rfl
  · rw [(benchAt_foldl_fields _ _ _).2.2.1]
    rfl
  · rw [(benchAt_foldl_fields _ _ _).2.2.2.1]
    rfl

theorem tradeAt_foldl_noop (ts : List Trade) (d : String) (p : ChartPoint)
    (hts : ∀ u ∈ ts, u.entry_date ≠ d ∧ u.exit_date ≠ d) : ts.foldl (tradeAt d) p = p := by
  induction ts generalizing p with
  | nil => rfl
  | cons t ts ih =>
    have ht := hts t (List.mem_cons_self _ _)
    rw [List.foldl_cons, tradeAt_noop d p t ht.1 ht.2]
    exact ih p fun u hu => hts u (List.mem_cons_of_mem _ hu)

theorem tradeAt_action (d : String) (p : ChartPoint) (t : Trade)
    (ht : t.entry_date = d ∨ t.exit_date = d) :
    (tradeAt d p t).action = some (if t.exit_date = d then "SELL" else "BUY") := by
  by_cases hx : t.exit_date = d
  · by_cases he : t.entry_date = d <;> simp [tradeAt, entryPoint, exitPoint, he, hx]
  · have he : t.entry_date = d := ht.resolve_right hx
    simp [tradeAt, entryPoint, he, hx]

theorem tradeAt_foldl_action_last (pre post : List Trade) (t : Trade) (d : String)
    (p : ChartPoint) (ht : t.entry_date = d ∨ t.exit_date = d)
    (hpost : ∀ u ∈ post, u.entry_date ≠ d ∧ u.exit_date ≠ d) :
    ((pre ++ t :: post).foldl (tradeAt d) p).action
      = some (if t.exit_date = d then "SELL" else "BUY") := by
  rw [List.foldl_append, List.foldl_cons, tradeAt_foldl_noop post d _ hpost]
  exact tradeAt_action d _ t ht

theorem tradeAt_foldl_action_none (ts : List Trade) (d : String) (p : ChartPoint) :
    (ts.foldl (tradeAt d) p).action = none ↔
      p.action = none ∧ ∀ t ∈ ts, t.entry_date ≠ d ∧ t.exit_date ≠ d := by
  induction ts generalizing p with
  | nil => simp
  | cons t ts ih =>
    rw [List.foldl_cons, ih]
    by_cases ht : t.entry_date = d ∨ t.exit_date = d
    · have hact := tradeAt_action d p t ht
      constructor
      · rintro ⟨h1, _⟩
        rw [hact] at h1
        exact Option.noConfusion h1
      · rintro ⟨_, h2⟩
        have := h2 t (List.mem_cons_self _ _)
        rcases ht with ht | ht
        · exact absurd ht this.1
        · exact absurd ht this.2
    · have h1 : t.entry_date ≠ d := fun e => ht (Or.inl e)
      have h2 : t.exit_date ≠ d := fun e => ht (Or.inr e)
      rw [tradeAt_noop d p t h1 h2]
      constructor
      · rintro ⟨hp, hall⟩
        refine ⟨hp, fun u hu => ?_⟩
        rcases List.mem_cons.1 hu with rfl | hu
        · exact ⟨h1, h2⟩
        · exact hall u hu
      · rintro ⟨hp, hall⟩
        exact ⟨hp, fun u hu => hall u (List.mem_cons_of_mem _ hu)⟩

theorem tradeAt_foldl_action_marker (ts : List Trade) (d : String) (p : ChartPoint)
    (hp : (p.action = some "BUY" → p.buy_marker.isSome = true) ∧
      (p.action = some "SELL" → p.sell_marker.isSome = true)) :
    ((ts.foldl (tradeAt d) p).action = some "BUY" →
        (ts.foldl (tradeAt d) p).buy_marker.isSome = true) ∧
    ((ts.foldl (tradeAt d) p).action = some "SELL" →
        (ts.foldl (tradeAt d) p).sell_marker.isSome = true) := by
  induction ts generalizing p with
  | nil => exact hp
  | cons t ts ih =>
    rw [List.foldl_cons]
    apply ih
    obtain ⟨hb, hs⟩ := hp
    by_cases he : t.entry_date = d <;> by_cases hx : t.exit_date = d
    · simp [tradeAt, entryPoint, exitPoint, he, hx]
    · simp [tradeAt, entryPoint, he, hx]
    · simp [tradeAt, exitPoint, he, hx]
    · simpa [tradeAt, he, hx] using ⟨hb, hs⟩

theorem finalPoint_markers (r : BacktestResult) (d : String) (p : ChartPoint)
    (h : finalPoint r d = some p) :
    p.buy_marker = (if ∃ t ∈ tradeList r, t.entry_date = d then some p.price else none) ∧
    p.sell_marker = (if ∃ t ∈ tradeList r, t.exit_date = d then some p.price else none) := by
  obtain ⟨p0, _, hb, hs, hp⟩ := finalPoint_decomp r d p h
  have hprice : p.price = p0.price := by rw [hp, (tradeAt_foldl_fields _ _ _).2.2.1]
  refine ⟨?_, ?_⟩
  · rw [hprice, ← hb, hp]
    exact tradeAt_foldl_buy _ _ _
  · rw [hprice, ← hs, hp]
    exact tradeAt_foldl_sell _ _ _

/-! ## Curves with one entry per date, and permutations of them -/

theorem lastEntry_of_mem_nodup (xs : List EquityPoint) (e : EquityPoint)
    (hnd : (curveDates xs).Nodup) (he : e ∈ xs) : lastEntry xs e.date = some e := by
  induction xs with
  | nil => simp at he
  | cons x rest ih =>
    have hnd1 : x.date ∉ curveDates rest ∧ (curveDates rest).Nodup := by
      simpa [curveDates] using hnd
    rcases List.mem_cons.1 he with rfl | hrest
    · simp [lastEntry, (lastEntry_eq_none_iff rest e.date).2 hnd1.1]
    · simp [lastEntry, ih hnd1.2 hrest]

theorem lastEntry_perm (xs ys : List EquityPoint) (d : String) (hperm : ys.Perm xs)
    (hnd : (curveDates xs).Nodup) : lastEntry ys d = lastEntry xs d := by
  have hdates : (curveDates ys).Perm (curveDates xs) := hperm.map EquityPoint.date
  cases hx : lastEntry xs d with
  | none =>
    rw [lastEntry_eq_none_iff] at hx ⊢
    exact fun hc => hx (hdates.subset hc)
  | some e =>
    obtain ⟨hmem, hdate⟩ := lastEntry_some xs d e hx
    have := lastEntry_of_mem_nodup ys e (hdates.nodup_iff.2 hnd) (hperm.symm.subset hmem)
    rw [hdate] at this
    exact this

theorem benchAt_foldl_eq (xs : List EquityPoint) (d : String) (p : ChartPoint) :
    xs.foldl (benchAt d) p
      = match lastEntry xs d with
        | some q => benchPoint q p
        | none => p := by
  induction xs generalizing p with
  | nil => rfl
  | cons x xs ih =>
    rw [List.foldl_cons, ih]
    cases hl : lastEntry xs d with
    | some q =>
      simp only [lastEntry, hl]
      unfold benchAt
      split <;> rfl
    | none =>
      by_cases hx : x.date = d
      · simp [lastEntry, hl, hx, benchAt]
      · simp [lastEntry, hl, hx, benchAt]

theorem finalPoint_perm (r1 r2 : BacktestResult) (d : String)
    (htrades : r2.trades = r1.trades)
    (hec : r2.equity_curve.Perm r1.equity_curve)
    (hbc : (benchmarkCurve r2).Perm (benchmarkCurve r1))
    (hnd1 : (curveDates r1.equity_curve).Nodup)
    (hnd2 : (curveDates (benchmarkCurve r1)).Nodup) :
    finalPoint r2 d = finalPoint r1 d := by
  have htl : tradeList r2 = tradeList r1 := by simp [tradeList, htrades]
  unfold finalPoint
  rw [htl, lastEntry_perm _ _ d hec hnd1]
  simp only [benchAt_foldl_eq, lastEntry_perm _ _ d hbc hnd2]

theorem arraySort_strict (l : List ChartPoint)
    (hl : ∀ b ∈ l, ∃ y, dateValue b.date = some y)
    (hnd : (l.map ChartPoint.date).Nodup) : (arraySort l).Pairwise dateLt := by
  have hperm := arraySort_perm l
  have hnd2 : ((arraySort l).map ChartPoint.date).Nodup :=
    (hperm.map ChartPoint.date).nodup_iff.2 hnd
  have hne : (arraySort l).Pairwise fun a b => a.date ≠ b.date := List.pairwise_map.1 hnd2
  refine List.Pairwise.imp ?_ ((arraySort_sorted l hl).and hne)
  rintro a b ⟨⟨x, y, hx, hy, hle⟩, hab⟩
  refine ⟨x, y, hx, hy, lt_of_le_of_ne hle fun e => hab ?_⟩
  exact dateValue_inj a.date b.date x hx (e ▸ hy)

theorem dateLt_antisymm (a b : ChartPoint) (hab : dateLt a b) (hba : dateLt b a) : a = b := by
  obtain ⟨x, y, hx, hy, hxy⟩ := hab
  obtain ⟨y1, x1, hy1, hx1, hyx⟩ := hba
  have e1 : x1 = x := Option.some.inj (hx1.symm.trans hx)
  have e2 : y1 = y := Option.some.inj (hy1.symm.trans hy)
  omega

theorem arraySort_eq_of_perm (l1 l2 : List ChartPoint) (hperm : l2.Perm l1)
    (hl : ∀ b ∈ l1, ∃ y, dateValue b.date = some y)
    (hnd : (l1.map ChartPoint.date).Nodup) : arraySort l2 = arraySort l1 := by
  have hs1 := arraySort_strict l1 hl hnd
  have hs2 := arraySort_strict l2 (fun b hb => hl b (hperm.subset hb))
    ((hperm.map ChartPoint.date).nodup_iff.2 hnd)
  have hp : (arraySort l2).Perm (arraySort l1) :=
    ((arraySort_perm l2).trans hperm).trans (arraySort_perm l1).symm
  exact @List.eq_of_perm_of_sorted _ dateLt ⟨dateLt_antisymm⟩ _ _ hp hs2 hs1

/-! ## The claims -/

/-- Claim C1: when the date keys of the strategy curve are ISO calendar dates, the
returned sequence is strictly ascending by parsed date (every point is strictly
earlier than every later point), so no two points share a date key; the order of
the entries of either curve plays no role. -/
theorem prepareChartData_strictly_ascending (r : BacktestResult)
    (hiso : ∀ d ∈ curveDates r.equity_curve, isIsoDate d = true) :
    ∃ out, prepareChartData (some r) = .ok out ∧ out.Pairwise dateLt ∧
      (out.map ChartPoint.date).Nodup := by
  obtain ⟨out, hok, hnd, _, _, _, hs⟩ := output_spec r
  refine ⟨out, hok, ?_, hnd⟩
  have hne : out.Pairwise fun a b => a.date ≠ b.date := List.pairwise_map.1 hnd
  refine List.Pairwise.imp ?_ ((hs hiso).and hne)
  rintro a b ⟨⟨x, y, hx, hy, hle⟩, hab⟩
  refine ⟨x, y, hx, hy, lt_of_le_of_ne hle fun e => hab ?_⟩
  exact dateValue_inj a.date b.date x hx (e ▸ hy)

/-- Claim C1 at a result whose curves are out of date order and repeat a date. -/
theorem prepareChartData_strictly_ascending_witness :
    (∀ d ∈ curveDates sampleUnordered.equity_curve, isIsoDate d = true) ∧
    ∃ out, prepareChartData (some sampleUnordered) = .ok out ∧ out.Pairwise dateLt ∧
      (out.map ChartPoint.date).Nodup :=
  ⟨by decide, prepareChartData_strictly_ascending sampleUnordered (by decide)⟩

/-- Claim C2: the dates of the returned points are exactly the distinct dates of the
strategy curve, one point per date, whatever the benchmark and the trades are: a
benchmark entry outside the strategy curve adds no point and no trade adds or
removes one. -/
theorem prepareChartData_dates_eq_equity_dates (r : BacktestResult) :
    ∃ out, prepareChartData (some r) = .ok out ∧
      (out.map ChartPoint.date).Nodup ∧
      (∀ d, d ∈ out.map ChartPoint.date ↔ d ∈ curveDates r.equity_curve) ∧
      (out.map ChartPoint.date).Perm (curveDates r.equity_curve).dedup ∧
      out.length = (curveDates r.equity_curve).dedup.length := by
  obtain ⟨out, hok, hnd, hmem, _, _, _⟩ := output_spec r
  have hperm : (out.map ChartPoint.date).Perm (curveDates r.equity_curve).dedup := by
    refine (List.perm_ext_iff_of_nodup hnd (List.nodup_dedup _)).2 fun d => ?_
    rw [hmem d, List.mem_dedup]
  refine ⟨out, hok, hnd, hmem, hperm, ?_⟩
  simpa using hperm.length_eq

/-- Claim C3, refuted as stated: the benchmark date 2020-01-02 does not occur in the
strategy curve and gets no point in the output. -/
theorem benchmark_only_date_dropped :
    prepareChartData (some sampleBenchmarkOnly)
      = .ok [⟨"2020-01-01", 100, 100, some 100, none, none, none⟩] ∧
    "2020-01-02" ∈ curveDates (benchmarkCurve sampleBenchmarkOnly) ∧
    ¬ ∃ out, prepareChartData (some sampleBenchmarkOnly) = .ok out ∧
        ∀ d, d ∈ out.map ChartPoint.date ↔
          (d ∈ curveDates sampleBenchmarkOnly.equity_curve ∨
            d ∈ curveDates (benchmarkCurve sampleBenchmarkOnly)) := by
  have hout : prepareChartData (some sampleBenchmarkOnly)
      = .ok [⟨"2020-01-01", 100, 100, some 100, none, none, none⟩] := by rfl
  refine ⟨hout, by decide, ?_⟩
  rintro ⟨out, hok, hall⟩
  rw [hout] at hok
  have hout2 := Except.ok.inj hok
  subst hout2
  have := (hall "2020-01-02").2 (Or.inr (by decide))
  revert this
  decide

/-- Claim C3, amended: the output has exactly one point for each distinct date key of
the strategy curve and no other point; a date key that occurs only in the benchmark
curve gets no point, so the output dates are the union of the date keys of the two
curves exactly when every date key of the benchmark curve occurs in the strategy
curve. -/
theorem prepareChartData_dates_union_iff (r : BacktestResult) :
    ∃ out, prepareChartData (some r) = .ok out ∧
      (out.map ChartPoint.date).Nodup ∧
      (∀ d, d ∈ curveDates r.equity_curve → ∃ p ∈ out, p.date = d) ∧
      (∀ p ∈ out, p.date ∈ curveDates r.equity_curve) ∧
      (∀ d, d ∈ out.map ChartPoint.date ↔ d ∈ curveDates r.equity_curve) ∧
      (∀ d ∈ curveDates (benchmarkCurve r), d ∉ curveDates r.equity_curve →
        ∀ p ∈ out, p.date ≠ d) ∧
      ((∀ d, d ∈ out.map ChartPoint.date ↔
          (d ∈ curveDates r.equity_curve ∨ d ∈ curveDates (benchmarkCurve r))) ↔
        ∀ d ∈ curveDates (benchmarkCurve r), d ∈ curveDates r.equity_curve) := by
  obtain ⟨out, hok, hnd, hmem, _, _, _⟩ := output_spec r
  have hsub : ∀ p ∈ out, p.date ∈ curveDates r.equity_curve :=
    fun p hp => (hmem p.date).1 (List.mem_map.2 ⟨p, hp, rfl⟩)
  refine ⟨out, hok, hnd, ?_, hsub, hmem, ?_, ?_⟩
  · intro d hd
    obtain ⟨p, hp, hpd⟩ := List.mem_map.1 ((hmem d).2 hd)
    exact ⟨p, hp, hpd⟩
  · intro d _ hnot p hp hpd
    exact hnot (hpd ▸ hsub p hp)
  · constructor
    · intro hall d hd
      exact (hmem d).1 ((hall d).2 (Or.inr hd))
    · intro hall d
      rw [hmem d]
      constructor
      · exact Or.inl
      · rintro (h | h)
        · exact h
        · exact hall d h

/-- Claim C4: without a benchmark the output has one point per distinct date of the
strategy curve (N points for N distinct dates); every point has `benchmark`
undefined, `price` 0 and the equity of the last curve entry of its date. -/
theorem prepareChartData_no_benchmark (r : BacktestResult) (hb : r.benchmark = none) :
    ∃ out, prepareChartData (some r) = .ok out ∧
      out.length = (curveDates r.equity_curve).dedup.length ∧
      (out.map ChartPoint.date).Perm (curveDates r.equity_curve).dedup ∧
      ∀ p ∈ out, p.benchmark = none ∧ p.price = 0 ∧
        ∃ e, lastEntry r.equity_curve p.date = some e ∧ p.equity = e.equity := by
  obtain ⟨out, hok, hnd, hmem, hfp, _, _⟩ := output_spec r
  have hperm : (out.map ChartPoint.date).Perm (curveDates r.equity_curve).dedup := by
    refine (List.perm_ext_iff_of_nodup hnd (List.nodup_dedup _)).2 fun d => ?_
    rw [hmem d, List.mem_dedup]
  refine ⟨out, hok, by simpa using hperm.length_eq, hperm, ?_⟩
  intro p hp
  obtain ⟨e, he, _, heq, hbm, hpr⟩ := finalPoint_fields r p.date p (hfp p hp)
  have hcurve : benchmarkCurve r = [] := by simp [benchmarkCurve, hb]
  rw [hcurve] at hbm hpr
  exact ⟨hbm, hpr, e, he, heq⟩

/-- Claim C4 at a result without benchmark whose curve repeats a date. -/
theorem prepareChartData_no_benchmark_witness :
    sampleNoBenchmark.benchmark = none ∧
    ∃ out, prepareChartData (some sampleNoBenchmark) = .ok out ∧
      out.length = (curveDates sampleNoBenchmark.equity_curve).dedup.length ∧
      (out.map ChartPoint.date).Perm (curveDates sampleNoBenchmark.equity_curve).dedup ∧
      ∀ p ∈ out, p.benchmark = none ∧ p.price = 0 ∧
        ∃ e, lastEntry sampleNoBenchmark.equity_curve p.date = some e ∧
          p.equity = e.equity :=
  ⟨rfl, prepareChartData_no_benchmark sampleNoBenchmark rfl⟩

/-- Claim C5: with a benchmark curve, the point of a date that occurs in both curves
has `benchmark` and `price` equal to the equity of the last benchmark entry of that
date and keeps the strategy equity; a point whose date does not occur in the
benchmark curve has `benchmark` undefined and `price` 0. -/
theorem prepareChartData_benchmark_fields (r : BacktestResult) (b : Benchmark)
    (curve : List EquityPoint) (hb : r.benchmark = some b)
    (hc : b.equity_curve = some curve) :
    ∃ out, prepareChartData (some r) = .ok out ∧
      (∀ d, d ∈ curveDates r.equity_curve → d ∈ curveDates curve →
        (∃ p ∈ out, p.date = d) ∧
        ∀ p ∈ out, p.date = d →
          ∃ q e, lastEntry curve d = some q ∧ lastEntry r.equity_curve d = some e ∧
            p.benchmark = some q.equity ∧ p.price = q.equity ∧ p.equity = e.equity) ∧
      (∀ p ∈ out, p.date ∉ curveDates curve → p.benchmark = none ∧ p.price = 0) := by
  obtain ⟨out, hok, _, hmem, hfp, _, _⟩ := output_spec r
  have hcurve : benchmarkCurve r = curve := by simp [benchmarkCurve, hb, hc]
  refine ⟨out, hok, ?_, ?_⟩
  · intro d hd hdb
    refine ⟨?_, ?_⟩
    · obtain ⟨p, hp, hpd⟩ := List.mem_map.1 ((hmem d).2 hd)
      exact ⟨p, hp, hpd⟩
    · intro p hp hpd
      obtain ⟨e, he, _, heq, hbm, hpr⟩ := finalPoint_fields r p.date p (hfp p hp)
      rw [hcurve, hpd] at hbm hpr
      rw [hpd] at he
      cases hq : lastEntry curve d with
      | none => exact absurd hdb ((lastEntry_eq_none_iff _ _).1 hq)
      | some q =>
        rw [hq] at hbm hpr
        exact ⟨q, e, rfl, he, hbm, hpr, heq⟩
  · intro p hp hnot
    obtain ⟨e, he, _, heq, hbm, hpr⟩ := finalPoint_fields r p.date p (hfp p hp)
    rw [hcurve, (lastEntry_eq_none_iff _ _).2 hnot] at hbm hpr
    exact ⟨hbm, hpr⟩

/-- Claim C5 at a result whose benchmark curve repeats a date and has a date of its own. -/
theorem prepareChartData_benchmark_fields_witness :
    sampleUnordered.benchmark = some ⟨some [⟨"2020-01-15", 50⟩, ⟨"2020-04-01", 60⟩,
      ⟨"2019-12-31", 40⟩, ⟨"2020-01-15", 51⟩]⟩ ∧
    ∃ out, prepareChartData (some sampleUnordered) = .ok out ∧
      (∀ d, d ∈ curveDates sampleUnordered.equity_curve →
        d ∈ curveDates [⟨"2020-01-15", 50⟩, ⟨"2020-04-01", 60⟩, ⟨"2019-12-31", 40⟩,
          ⟨"2020-01-15", 51⟩] →
        (∃ p ∈ out, p.date = d) ∧
        ∀ p ∈ out, p.date = d →
          ∃ q e, lastEntry [⟨"2020-01-15", 50⟩, ⟨"2020-04-01", 60⟩, ⟨"2019-12-31", 40⟩,
              ⟨"2020-01-15", 51⟩] d = some q ∧
            lastEntry sampleUnordered.equity_curve d = some e ∧
            p.benchmark = some q.equity ∧ p.price = q.equity ∧ p.equity = e.equity) ∧
      (∀ p ∈ out, p.date ∉ curveDates [⟨"2020-01-15", 50⟩, ⟨"2020-04-01", 60⟩,
          ⟨"2019-12-31", 40⟩, ⟨"2020-01-15", 51⟩] → p.benchmark = none ∧ p.price = 0) :=
  ⟨rfl, prepareChartData_benchmark_fields sampleUnordered _ _ rfl rfl⟩

/-- Claim C6, refuted as stated: the first trade of the list is entered on 2020-01-01
and exited on 2020-01-02, both dates of the strategy curve, yet the point of
2020-01-02 ends with the action BUY, written by the entry of the second trade. -/
theorem later_entry_overwrites_sell :
    (⟨"2020-01-01", "2020-01-02"⟩ : Trade) ∈ tradeList sampleBackToBack ∧
    "2020-01-01" ∈ curveDates sampleBackToBack.equity_curve ∧
    "2020-01-02" ∈ curveDates sampleBackToBack.equity_curve ∧
    prepareChartData (some sampleBackToBack)
      = .ok [⟨"2020-01-01", 100, 0, none, some 0, none, some "BUY"⟩,
             ⟨"2020-01-02", 105, 0, none, some 0, some 0, some "BUY"⟩,
             ⟨"2020-01-03", 110, 0, none, none, some 0, some "SELL"⟩] ∧
    ¬ ∃ out, prepareChartData (some sampleBackToBack) = .ok out ∧
        ∃ p ∈ out, p.date = "2020-01-02" ∧ p.action = some "SELL" := by
  have hout : prepareChartData (some sampleBackToBack)
      = .ok [⟨"2020-01-01", 100, 0, none, some 0, none, some "BUY"⟩,
             ⟨"2020-01-02", 105, 0, none, some 0, some 0, some "BUY"⟩,
             ⟨"2020-01-03", 110, 0, none, none, some 0, some "SELL"⟩] := by rfl
  refine ⟨by decide, by decide, by decide, hout, ?_⟩
  rintro ⟨out, hok, p, hp, hpd, hpa⟩
  rw [hout] at hok
  have hout2 := Except.ok.inj hok
  subst hout2
  have hall : ∀ q ∈ ([⟨"2020-01-01", 100, 0, none, some 0, none, some "BUY"⟩,
      ⟨"2020-01-02", 105, 0, none, some 0, some 0, some "BUY"⟩,
      ⟨"2020-01-03", 110, 0, none, none, some 0, some "SELL"⟩] : List ChartPoint),
      q.date = "2020-01-02" → q.action ≠ some "SELL" := by decide
  exact hall p hp hpd hpa

/-- Claim C6, amended: for a trade of the list with entry date d1 and exit date d2,
d1 ≠ d2, both in the strategy curve, the point of d1 has `buy_marker` set and the
point of d2 has `sell_marker` set; the action at d1 is BUY when no later trade of the
list is exited on d1, and the action at d2 is SELL when no later trade of the list is
entered on d2. -/
theorem prepareChartData_trade_markers (r : BacktestResult) (pre post : List Trade)
    (t : Trade) (ht : r.trades = some (pre ++ t :: post))
    (hne : t.entry_date ≠ t.exit_date)
    (h1 : t.entry_date ∈ curveDates r.equity_curve)
    (h2 : t.exit_date ∈ curveDates r.equity_curve) :
    ∃ out, prepareChartData (some r) = .ok out ∧
      (∃ p ∈ out, p.date = t.entry_date ∧ p.buy_marker.isSome = true ∧
        ((∀ u ∈ post, u.exit_date ≠ t.entry_date) → p.action = some "BUY")) ∧
      (∃ p ∈ out, p.date = t.exit_date ∧ p.sell_marker.isSome = true ∧
        ((∀ u ∈ post, u.entry_date ≠ t.exit_date) → p.action = some "SELL")) := by
  obtain ⟨out, hok, _, _, hfp, hin, _⟩ := output_spec r
  have hts : tradeList r = pre ++ t :: post := by simp [tradeList, ht]
  have hmem : t ∈ pre ++ t :: post := by simp
  refine ⟨out, hok, ?_, ?_⟩
  · obtain ⟨p, hp, hpd, hfin, _⟩ := output_point r out hfp hin t.entry_date h1
    obtain ⟨p0, hp0⟩ := finalPoint_trades r _ p hfin
    rw [hts] at hp0
    refine ⟨p, hp, hpd, ?_, ?_⟩
    · rw [hp0, tradeAt_foldl_buy, if_pos ⟨t, hmem, rfl⟩]
      rfl
    · intro hpost
      rw [hp0, List.foldl_append, List.foldl_cons]
      apply tradeAt_foldl_keeps_buy _ _ _ _ hpost
      simp [tradeAt, entryPoint, hne.symm]
  · obtain ⟨p, hp, hpd, hfin, _⟩ := output_point r out hfp hin t.exit_date h2
    obtain ⟨p0, hp0⟩ := finalPoint_trades r _ p hfin
    rw [hts] at hp0
    refine ⟨p, hp, hpd, ?_, ?_⟩
    · rw [hp0, tradeAt_foldl_sell, if_pos ⟨t, hmem, rfl⟩]
      rfl
    · intro hpost
      rw [hp0, List.foldl_append, List.foldl_cons]
      apply tradeAt_foldl_keeps_sell _ _ _ _ hpost
      simp [tradeAt, exitPoint, hne]

/-- Claim C6 as amended, at the last of two back-to-back trades. -/
theorem prepareChartData_trade_markers_witness :
    sampleBackToBack.trades
      = some ([⟨"2020-01-01", "2020-01-02"⟩] ++ ⟨"2020-01-02", "2020-01-03"⟩ :: []) ∧
    ∃ out, prepareChartData (some sampleBackToBack) = .ok out ∧
      (∃ p ∈ out, p.date = "2020-01-02" ∧ p.buy_marker.isSome = true ∧
        ((∀ u ∈ ([] : List Trade), u.exit_date ≠ "2020-01-02") → p.action = some "BUY")) ∧
      (∃ p ∈ out, p.date = "2020-01-03" ∧ p.sell_marker.isSome = true ∧
        ((∀ u ∈ ([] : List Trade), u.entry_date ≠ "2020-01-03") →
          p.action = some "SELL")) :=
  ⟨rfl, prepareChartData_trade_markers sampleBackToBack [⟨"2020-01-01", "2020-01-02"⟩] []
    ⟨"2020-01-02", "2020-01-03"⟩ rfl (by decide) (by decide) (by decide)⟩

/-- Claim C7: a trade whose entry date and exit date are both absent from the
strategy curve can be inserted at any position of the trade list without changing
the result, and the routine still returns a sequence. -/
theorem prepareChartData_absent_trade_noop (r : BacktestResult) (pre post : List Trade)
    (t : Trade) (h1 : t.entry_date ∉ curveDates r.equity_curve)
    (h2 : t.exit_date ∉ curveDates r.equity_curve) :
    prepareChartData (some { r with trades := some (pre ++ t :: post) })
      = prepareChartData (some { r with trades := some (pre ++ post) }) ∧
    ∃ out, prepareChartData (some { r with trades := some (pre ++ t :: post) }) = .ok out := by
  have key : ∀ d ∈ seedKeys r.equity_curve,
      finalPoint { r with trades := some (pre ++ t :: post) } d
        = finalPoint { r with trades := some (pre ++ post) } d := by
    intro d hd
    have hd2 := (mem_seedKeys _ d).1 hd
    have e1 : t.entry_date ≠ d := fun e => h1 (e ▸ hd2)
    have e2 : t.exit_date ≠ d := fun e => h2 (e ▸ hd2)
    simp only [finalPoint, tradeList, benchmarkCurve, List.foldl_append, List.foldl_cons,
      tradeAt_noop d _ t e1 e2]
  rw [prepareChartData_eq, prepareChartData_eq]
  refine ⟨?_, _, rfl⟩
  show Except.ok (arraySort (List.filterMap _ (seedKeys r.equity_curve)))
    = Except.ok (arraySort (List.filterMap _ (seedKeys r.equity_curve)))
  rw [List.filterMap_congr key]

/-- Claim C7 at a trade of 2021 appended to the trades of a curve of 2020. -/
theorem prepareChartData_absent_trade_noop_witness :
    "2021-05-05" ∉ curveDates sampleNoBenchmark.equity_curve ∧
    "2021-06-06" ∉ curveDates sampleNoBenchmark.equity_curve ∧
    prepareChartData (some { sampleNoBenchmark with
        trades := some ([⟨"2020-01-01", "2020-01-02"⟩] ++ ⟨"2021-05-05", "2021-06-06"⟩ :: []) })
      = prepareChartData (some { sampleNoBenchmark with
        trades := some ([⟨"2020-01-01", "2020-01-02"⟩] ++ []) }) ∧
    ∃ out, prepareChartData (some { sampleNoBenchmark with
        trades := some ([⟨"2020-01-01", "2020-01-02"⟩] ++ ⟨"2021-05-05", "2021-06-06"⟩ :: []) })
      = .ok out :=
  ⟨by decide, by decide,
    prepareChartData_absent_trade_noop sampleNoBenchmark [⟨"2020-01-01", "2020-01-02"⟩] []
      ⟨"2021-05-05", "2021-06-06"⟩ (by decide) (by decide)⟩

/-- Claim C8: a trade entered and exited on the same date d of the strategy curve
sets both `buy_marker` and `sell_marker` on the single point of d; when no other
trade of the list has d as entry or exit date, the action of that point is SELL. -/
theorem prepareChartData_same_day_trade (r : BacktestResult) (pre post : List Trade)
    (t : Trade) (ht : r.trades = some (pre ++ t :: post))
    (hsame : t.exit_date = t.entry_date)
    (hin : t.entry_date ∈ curveDates r.equity_curve) :
    ∃ out, prepareChartData (some r) = .ok out ∧
      ∃ p ∈ out, p.date = t.entry_date ∧ (∀ p1 ∈ out, p1.date = t.entry_date → p1 = p) ∧
        p.buy_marker.isSome = true ∧ p.sell_marker.isSome = true ∧
        ((∀ u ∈ pre ++ post, u.entry_date ≠ t.entry_date ∧ u.exit_date ≠ t.entry_date) →
          p.action = some "SELL") := by
  obtain ⟨out, hok, _, _, hfp, hmemout, _⟩ := output_spec r
  have hts : tradeList r = pre ++ t :: post := by simp [tradeList, ht]
  have hmem : t ∈ pre ++ t :: post := by simp
  obtain ⟨p, hp, hpd, hfin, huniq⟩ := output_point r out hfp hmemout t.entry_date hin
  obtain ⟨p0, hp0⟩ := finalPoint_trades r _ p hfin
  rw [hts] at hp0
  refine ⟨out, hok, p, hp, hpd, huniq, ?_, ?_, ?_⟩
  · rw [hp0, tradeAt_foldl_buy, if_pos ⟨t, hmem, rfl⟩]
    rfl
  · rw [hp0, tradeAt_foldl_sell, if_pos ⟨t, hmem, hsame⟩]
    rfl
  · intro hothers
    rw [hp0, List.foldl_append, List.foldl_cons]
    apply tradeAt_foldl_keeps_sell
    · simp [tradeAt, exitPoint, hsame]
    · intro u hu
      exact (hothers u (List.mem_append_right _ hu)).1

/-- Claim C8 at a same-day trade standing between two other trades. -/
theorem prepareChartData_same_day_trade_witness :
    sampleSameDay.trades = some ([⟨"2020-01-01", "2020-01-03"⟩]
      ++ ⟨"2020-01-02", "2020-01-02"⟩ :: [⟨"2020-01-03", "2020-01-04"⟩]) ∧
    ∃ out, prepareChartData (some sampleSameDay) = .ok out ∧
      ∃ p ∈ out, p.date = "2020-01-02" ∧ (∀ p1 ∈ out, p1.date = "2020-01-02" → p1 = p) ∧
        p.buy_marker.isSome = true ∧ p.sell_marker.isSome = true ∧
        ((∀ u ∈ [(⟨"2020-01-01", "2020-01-03"⟩ : Trade)] ++ [⟨"2020-01-03", "2020-01-04"⟩],
            u.entry_date ≠ "2020-01-02" ∧ u.exit_date ≠ "2020-01-02") →
          p.action = some "SELL") :=
  ⟨rfl, prepareChartData_same_day_trade sampleSameDay [⟨"2020-01-01", "2020-01-03"⟩]
    [⟨"2020-01-03", "2020-01-04"⟩] ⟨"2020-01-02", "2020-01-02"⟩ rfl rfl (by decide)⟩

/-- Claim C9: with an empty strategy curve the routine returns the empty sequence,
whatever the benchmark curve and the trades are. -/
theorem prepareChartData_empty_curve (r : BacktestResult) (h : r.equity_curve = []) :
    prepareChartData (some r) = .ok [] := by
  rw [prepareChartData_eq, h]
  rfl

/-- Claim C9 at an empty strategy curve with a benchmark curve and a trade. -/
theorem prepareChartData_empty_curve_witness :
    sampleEmptyCurve.equity_curve = [] ∧ prepareChartData (some sampleEmptyCurve) = .ok [] :=
  ⟨rfl, prepareChartData_empty_curve sampleEmptyCurve rfl⟩

/-- Claim C10: the routine raises no error: for every result (also before any result
has arrived), with or without benchmark, benchmark curve and trades and whatever the
date strings are, it returns a sequence; and the iteration over a benchmark curve,
which contains the read of the first entry of that curve, succeeds from every map. -/
theorem prepareChartData_no_error :
    (∀ results : Option BacktestResult, ∃ out, prepareChartData results = .ok out) ∧
    (∀ (curve : List EquityPoint) (dataMap : DataMap),
      ∃ m, forEach (benchmarkStep curve) curve dataMap = .ok m) := by
  refine ⟨?_, fun curve dataMap => ⟨_, benchmarkStep_forEach_ok curve dataMap⟩⟩
  intro results
  cases results with
  | none => exact ⟨[], rfl⟩
  | some r => exact ⟨_, prepareChartData_eq r⟩

/-- Claim C11: on the worked example of the specification the routine returns exactly
the two points of the example, in date order: the first with equity 100, benchmark
100, price 100, `buy_marker` 100, action BUY and no `sell_marker`, the second with
equity 105, benchmark 102, price 102, `sell_marker` 102, action SELL and no
`buy_marker`. -/
theorem prepareChartData_specExample :
    prepareChartData (some specExample) = .ok [specExampleFirst, specExampleSecond] := by
  rfl

/-- Claim C12: the merge is keyed by date. When each curve has at most one entry per
date and the dates of the strategy curve are ISO calendar dates, a result whose
curves are permutations of the curves of another result, with the same trades, gives
exactly the same output sequence. -/
theorem prepareChartData_perm_invariant (r1 r2 : BacktestResult)
    (htrades : r2.trades = r1.trades)
    (hec : r2.equity_curve.Perm r1.equity_curve)
    (hbc : (benchmarkCurve r2).Perm (benchmarkCurve r1))
    (hnd1 : (curveDates r1.equity_curve).Nodup)
    (hnd2 : (curveDates (benchmarkCurve r1)).Nodup)
    (hiso : ∀ d ∈ curveDates r1.equity_curve, isIsoDate d = true) :
    prepareChartData (some r2) = prepareChartData (some r1) ∧
    ∃ out, prepareChartData (some r1) = .ok out := by
  refine ⟨?_, _, prepareChartData_eq r1⟩
  rw [prepareChartData_eq, prepareChartData_eq]
  have hfun : finalPoint r2 = finalPoint r1 :=
    funext fun d => finalPoint_perm r1 r2 d htrades hec hbc hnd1 hnd2
  have hkeys : (seedKeys r2.equity_curve).Perm (seedKeys r1.equity_curve) := by
    refine (List.perm_ext_iff_of_nodup (seedKeys_nodup _) (seedKeys_nodup _)).2 fun d => ?_
    rw [mem_seedKeys, mem_seedKeys]
    exact (hec.map EquityPoint.date).mem_iff
  rw [hfun]
  congr 1
  apply arraySort_eq_of_perm _ _ (hkeys.filterMap _)
  · intro b hb
    obtain ⟨d, hd, hfd⟩ := List.mem_filterMap.1 hb
    rw [finalPoint_date r1 d b hfd]
    exact dateValue_of_isIsoDate d (hiso d ((mem_seedKeys _ d).1 hd))
  · rw [filterMap_finalPoint_dates r1 _ fun d hd => (mem_seedKeys _ d).1 hd]
    exact seedKeys_nodup _

/-- Claim C12 at a result with three days and a shuffled copy of it. -/
theorem prepareChartData_perm_invariant_witness :
    sampleShuffled.trades = sampleOrdered.trades ∧
    sampleShuffled.equity_curve.Perm sampleOrdered.equity_curve ∧
    (benchmarkCurve sampleShuffled).Perm (benchmarkCurve sampleOrdered) ∧
    (curveDates sampleOrdered.equity_curve).Nodup ∧
    (curveDates (benchmarkCurve sampleOrdered)).Nodup ∧
    (∀ d ∈ curveDates sampleOrdered.equity_curve, isIsoDate d = true) ∧
    prepareChartData (some sampleShuffled) = prepareChartData (some sampleOrdered) ∧
    ∃ out, prepareChartData (some sampleOrdered) = .ok out :=
  ⟨rfl, by decide, by decide, by decide, by decide, by decide,
    prepareChartData_perm_invariant sampleOrdered sampleShuffled rfl (by decide) (by decide)
      (by decide) (by decide) (by decide)⟩

/-- Claim C13: on every output point, `buy_marker` is set exactly when some trade is
entered on the date of the point and `sell_marker` exactly when some trade is exited
on it; a marker that is set equals the final `price` of the point, which is the
equity of the (last) benchmark entry of that date, or 0 when the benchmark curve has
no such entry. -/
theorem prepareChartData_markers (r : BacktestResult) :
    ∃ out, prepareChartData (some r) = .ok out ∧
      ∀ p ∈ out,
        (p.buy_marker.isSome = true ↔ ∃ t ∈ tradeList r, t.entry_date = p.date) ∧
        (p.sell_marker.isSome = true ↔ ∃ t ∈ tradeList r, t.exit_date = p.date) ∧
        (∀ v, p.buy_marker = some v → v = p.price) ∧
        (∀ v, p.sell_marker = some v → v = p.price) ∧
        p.price = (match lastEntry (benchmarkCurve r) p.date with
          | some q => q.equity
          | none => 0) := by
  obtain ⟨out, hok, _, _, hfp, _, _⟩ := output_spec r
  refine ⟨out, hok, fun p hp => ?_⟩
  obtain ⟨hbuy, hsell⟩ := finalPoint_markers r p.date p (hfp p hp)
  obtain ⟨_, _, _, _, _, hprice⟩ := finalPoint_fields r p.date p (hfp p hp)
  refine ⟨?_, ?_, ?_, ?_, hprice⟩
  · by_cases hex : ∃ t ∈ tradeList r, t.entry_date = p.date
    · rw [if_pos hex] at hbuy
      simp [hbuy, hex]
    · rw [if_neg hex] at hbuy
      simp [hbuy, hex]
  · by_cases hex : ∃ t ∈ tradeList r, t.exit_date = p.date
    · rw [if_pos hex] at hsell
      simp [hsell, hex]
    · rw [if_neg hex] at hsell
      simp [hsell, hex]
  · intro v hv
    rw [hbuy] at hv
    split at hv
    · exact (Option.some.inj hv).symm
    · exact Option.noConfusion hv
  · intro v hv
    rw [hsell] at hv
    split at hv
    · exact (Option.some.inj hv).symm
    · exact Option.noConfusion hv

/-- Claim C14: on every output point with date d, the action is undefined exactly
when no trade has d as entry date or exit date, which is exactly when neither marker
is set; otherwise, for the last trade of the list that has d as entry date or exit
date, the action is SELL when that trade is exited on d and BUY when it is only
entered on d. Hence the action BUY comes with `buy_marker` set and the action SELL
with `sell_marker` set. -/
theorem prepareChartData_action (r : BacktestResult) :
    ∃ out, prepareChartData (some r) = .ok out ∧
      ∀ p ∈ out,
        (p.action = none ↔
          ∀ t ∈ tradeList r, t.entry_date ≠ p.date ∧ t.exit_date ≠ p.date) ∧
        (p.action = none ↔ p.buy_marker = none ∧ p.sell_marker = none) ∧
        (∀ pre t post, tradeList r = pre ++ t :: post →
          (t.entry_date = p.date ∨ t.exit_date = p.date) →
          (∀ u ∈ post, u.entry_date ≠ p.date ∧ u.exit_date ≠ p.date) →
          p.action = some (if t.exit_date = p.date then "SELL" else "BUY")) ∧
        (p.action = some "BUY" → p.buy_marker.isSome = true) ∧
        (p.action = some "SELL" → p.sell_marker.isSome = true) := by
  obtain ⟨out, hok, _, _, hfp, _, _⟩ := output_spec r
  refine ⟨out, hok, fun p hp => ?_⟩
  obtain ⟨p0, ha, hb, hs, hp0⟩ := finalPoint_decomp r p.date p (hfp p hp)
  obtain ⟨hbuy, hsell⟩ := finalPoint_markers r p.date p (hfp p hp)
  have hnone : p.action = none ↔
      ∀ t ∈ tradeList r, t.entry_date ≠ p.date ∧ t.exit_date ≠ p.date := by
    have := tradeAt_foldl_action_none (tradeList r) p.date p0
    rw [← hp0] at this
    rw [this]
    exact ⟨fun h => h.2, fun h => ⟨ha, h⟩⟩
  have hinit : (p0.action = some "BUY" → p0.buy_marker.isSome = true) ∧
      (p0.action = some "SELL" → p0.sell_marker.isSome = true) := by
    rw [ha]
    exact ⟨fun h => Option.noConfusion h, fun h => Option.noConfusion h⟩
  have hmark := tradeAt_foldl_action_marker (tradeList r) p.date p0 hinit
  rw [← hp0] at hmark
  refine ⟨hnone, ?_, ?_, hmark.1, hmark.2⟩
  · rw [hnone]
    constructor
    · intro hall
      have h1 : ¬ ∃ t ∈ tradeList r, t.entry_date = p.date :=
        fun ⟨t, ht, hte⟩ => (hall t ht).1 hte
      have h2 : ¬ ∃ t ∈ tradeList r, t.exit_date = p.date :=
        fun ⟨t, ht, hte⟩ => (hall t ht).2 hte
      rw [if_neg h1] at hbuy
      rw [if_neg h2] at hsell
      exact ⟨hbuy, hsell⟩
    · rintro ⟨h1, h2⟩ t ht
      refine ⟨fun hte => ?_, fun hte => ?_⟩
      · rw [if_pos ⟨t, ht, hte⟩, h1] at hbuy
        exact Option.noConfusion hbuy
      · rw [if_pos ⟨t, ht, hte⟩, h2] at hsell
        exact Option.noConfusion hsell
  · intro pre t post hts htouch hpost
    have := tradeAt_foldl_action_last pre post t p.date p0 htouch hpost
    rw [← hts, ← hp0] at this
    exact this

end Reconciler
